import Mathlib

/-!
Verification of the memory persistence and vector-similarity-search layer
(`testerx/data_access/json_data_access.py`, class `JsonDataAccess`).

Shallow embedding conventions:
* A `Store` holds the persisted state (record files, vector files, the tag
  file) together with the in-memory state (`memTags`, the Faiss index as the
  parallel lists `indexIds`/`indexVecs`, and the configured dimension).
* File directories keyed by id are modelled as association lists with the
  overwrite-or-append write `setA` (overwriting a file keeps its directory
  position; creating one appends).
* numpy float vectors are modelled as `List Rat`; vector values in the
  claims only ever flow through exact arithmetic (L2-squared distances and
  the `1 - d/2` transform), never through float rounding.
* JSON metadata values are abstracted as strings (only equality of the
  whole mapping matters to any claim).
* Python exceptions are modelled by `PyResult`: `.exn s` is a raise with the
  side effects already performed captured in `s` (Python has no rollback).
* The external `EmbeddingModel.get_embedding` is a parameter
  `embed : String → Option (List Rat)`; `none` models a raising provider.
* Fresh UUIDs and `datetime.now()` are passed in as the explicit arguments
  `newId` / `now`.
* Python `list.sort` is a stable sort, as is Faiss result ordering up to
  ties; both are modelled with `List.insertionSort`, which is stable.
-/

/-- A memory record as persisted in `memories/<id>.json`; the embedding is
never part of the record (`_save_memory` strips it). -/
structure Memory where
  id : String
  content : String
  content_type : String
  tags : List String
  metadata : List (String × String)
  importance : Rat
  created_at : String
  updated_at : String
deriving DecidableEq

/-- The whole state of one `JsonDataAccess` instance: persisted files plus
the in-memory tag list and Faiss index. -/
structure Store where
  records : List (String × Memory)
  vectors : List (String × List Rat)
  tagsFile : List String
  memTags : List String
  indexIds : List String
  indexVecs : List (List Rat)
  dimension : Nat
deriving DecidableEq

/-- Result of a Python call: normal return, or an exception whose side
effects performed so far are kept in the state. -/
inductive PyResult (α : Type) where
  | ok (s : Store) (v : α)
  | exn (s : Store)
deriving DecidableEq

/-- The state after a call, whether it returned or raised. -/
def PyResult.state : PyResult α → Store
  | .ok s _ => s
  | .exn s => s

/-- Association-list lookup by key (directory read of `<k>.json` / `<k>.npy`). -/
def lookupA : List (String × α) → String → Option α
  | [], _ => none
  | p :: rest, k => if p.1 = k then some p.2 else lookupA rest k

/-- Association-list write: overwrite in place if the key exists, else append
(the filesystem keeps an existing file's directory slot on overwrite). -/
def setA (l : List (String × α)) (k : String) (v : α) : List (String × α) :=
  if (lookupA l k).isSome then
    l.map (fun p => if p.1 = k then (k, v) else p)
  else l ++ [(k, v)]

/-- Association-list delete (`os.remove`). -/
def removeA (l : List (String × α)) (k : String) : List (String × α) :=
  l.filter (fun p => p.1 != k)

theorem lookupA_nil (k : String) : lookupA ([] : List (String × α)) k = none := rfl

theorem lookupA_cons (p : String × α) (l : List (String × α)) (k : String) :
    lookupA (p :: l) k = if p.1 = k then some p.2 else lookupA l k := rfl

theorem lookupA_mem {l : List (String × α)} {k : String} {v : α}
    (h : lookupA l k = some v) : (k, v) ∈ l := by
  induction l with
  | nil => simp [lookupA] at h
  | cons p rest ih =>
    rw [lookupA_cons] at h
    by_cases hk : p.1 = k
    · simp [hk] at h
      subst hk h
      exact List.mem_cons_self _ _
    · simp [hk] at h
      exact List.mem_cons_of_mem _ (ih h)

theorem lookupA_isSome_iff {l : List (String × α)} {k : String} :
    (lookupA l k).isSome ↔ k ∈ l.map Prod.fst := by
  induction l with
  | nil => simp [lookupA]
  | cons p rest ih =>
    rw [lookupA_cons]
    by_cases hk : p.1 = k
    · simp [hk]
    · simp [hk, ih, Ne.symm hk]

theorem lookupA_append_right {l : List (String × α)} {k : String}
    (h : lookupA l k = none) (l₂ : List (String × α)) :
    lookupA (l ++ l₂) k = lookupA l₂ k := by
  induction l with
  | nil => rfl
  | cons p rest ih =>
    rw [lookupA_cons] at h
    by_cases hk : p.1 = k
    · simp [hk] at h
    · simpa [lookupA_cons, hk] using ih (by simpa [hk] using h)

theorem lookupA_setA_self (l : List (String × α)) (k : String) (v : α) :
    lookupA (setA l k v) k = some v := by
  unfold setA
  by_cases hs : (lookupA l k).isSome
  · simp only [hs, if_true]
    induction l with
    | nil => simp [lookupA] at hs
    | cons p rest ih =>
      by_cases hk : p.1 = k
      · simp [lookupA_cons, hk]
      · rw [lookupA_cons] at hs
        simp only [hk, if_false] at hs
        simpa [lookupA_cons, hk] using ih hs
  · have hnone : lookupA l k = none := by
      cases h : lookupA l k with
      | none => rfl
      | some v => simp [h] at hs
    simp only [hnone, Option.isSome_none, Bool.false_eq_true, if_false]
    rw [lookupA_append_right hnone]
    simp [lookupA_cons]

theorem setA_map_fst_of_isSome {l : List (String × α)} {k : String}
    (h : (lookupA l k).isSome) (v : α) :
    (setA l k v).map Prod.fst = l.map Prod.fst := by
  unfold setA
  simp only [h, if_true, List.map_map]
  apply List.map_congr_left
  intro p _
  by_cases hk : p.1 = k
  · simp [hk]
  · simp [hk]

theorem setA_map_fst_of_none {l : List (String × α)} {k : String}
    (h : lookupA l k = none) (v : α) :
    (setA l k v).map Prod.fst = l.map Prod.fst ++ [k] := by
  unfold setA
  simp [h]

theorem mem_setA {l : List (String × α)} {k : String} {v : α} {p : String × α}
    (h : p ∈ setA l k v) : p = (k, v) ∨ p ∈ l := by
  unfold setA at h
  by_cases hs : (lookupA l k).isSome
  · simp only [hs, if_true] at h
    rcases List.mem_map.mp h with ⟨q, hq, hqe⟩
    by_cases hk : q.1 = k
    · simp [hk] at hqe
      exact Or.inl hqe.symm
    · simp [hk] at hqe
      exact Or.inr (hqe ▸ hq)
  · have hs' : (lookupA l k).isSome = false := by
      cases hls : (lookupA l k).isSome
      · rfl
      · exact absurd hls hs
    simp only [hs', Bool.false_eq_true, if_false, List.mem_append,
      List.mem_singleton] at h
    exact h.symm.imp id id

theorem removeA_map_fst (l : List (String × α)) (k : String) :
    (removeA l k).map Prod.fst = (l.map Prod.fst).filter (fun x => x != k) := by
  induction l with
  | nil => rfl
  | cons p rest ih =>
    by_cases hk : p.1 = k
    · simp [removeA, List.filter_cons, hk] at ih ⊢
      exact ih
    · simp [removeA, List.filter_cons, hk] at ih ⊢
      exact ih

theorem mem_removeA {l : List (String × α)} {k : String} {p : String × α}
    (h : p ∈ removeA l k) : p ∈ l :=
  List.mem_of_mem_filter h

theorem lookupA_removeA_self (l : List (String × α)) (k : String) :
    lookupA (removeA l k) k = none := by
  induction l with
  | nil => rfl
  | cons p rest ih =>
    by_cases hk : p.1 = k
    · simpa [removeA, List.filter_cons, hk] using ih
    · simpa [removeA, List.filter_cons, hk, lookupA_cons] using ih

/-- Source `JsonDataAccess._add_tags`: append each unseen tag name to the
in-memory list, then `_save_tags` writes the whole list to `tags.json`. -/
def addTags (s : Store) (tag_names : List String) : Store :=
  let ts := tag_names.foldl (fun acc t => if t ∈ acc then acc else acc ++ [t]) s.memTags
  { s with memTags := ts, tagsFile := ts }

/-- Source `JsonDataAccess._save_memory`: write the record (embedding field
stripped — our `Memory` never carries one) to `memories/<id>.json`. -/
def saveMemory (s : Store) (memory_data : Memory) : Store :=
  { s with records := setA s.records memory_data.id memory_data }

/-- Source `JsonDataAccess._load_memory` / `get_memory_by_id`. -/
def loadMemory (s : Store) (memory_id : String) : Option Memory :=
  lookupA s.records memory_id

/-- Source `JsonDataAccess._format_memory_data` (defaults already resolved
by the caller, as `add_memory` passes `tags or []` and `metadata or {}`). -/
def formatMemoryData (newId now content content_type : String)
    (tags : List String) (metadata : List (String × String))
    (importance : Rat) : Memory :=
  { id := newId, content := content, content_type := content_type,
    tags := tags, metadata := metadata, importance := importance,
    created_at := now, updated_at := now }

/-- The (id, vector) pairs gathered by `_build_faiss_index`: iterate record
files in directory order, keep those with a persisted embedding. -/
def indexPairs (s : Store) : List (String × List Rat) :=
  s.records.filterMap (fun p => (lookupA s.vectors p.1).map (fun v => (p.1, v)))

/-- Source `JsonDataAccess._build_faiss_index`. On success the index holds
exactly the gathered pairs. `np.array` raises on ragged vector lists before
any assignment; a uniform length different from the configured dimension
makes `faiss_index.add` raise after an empty index was already assigned
(`memory_ids_indexed` is then left stale). The Bool is `false` when the
rebuild raised. -/
def buildFaissIndex (s : Store) : Store × Bool :=
  match indexPairs s with
  | [] => ({ s with indexIds := [], indexVecs := [] }, true)
  | p :: rest =>
    if (p :: rest).all (fun q => q.2.length = p.2.length) then
      if p.2.length = s.dimension then
        ({ s with indexIds := (p :: rest).map Prod.fst,
                  indexVecs := (p :: rest).map Prod.snd }, true)
      else ({ s with indexVecs := [] }, false)
    else (s, false)

/-- Source `JsonDataAccess._save_embedding`: `np.save` the vector file, then
`_update_faiss_index_single` rebuilds the whole index (which may raise,
leaving the file in place). -/
def saveEmbedding (s : Store) (memory_id : String) (embedding : List Rat) :
    PyResult Unit :=
  let s1 := { s with vectors := setA s.vectors memory_id embedding }
  match buildFaissIndex s1 with
  | (s2, true) => .ok s2 ()
  | (s2, false) => .exn s2

/-- Source `JsonDataAccess.add_memory`. `embed` is the external
`EmbeddingModel.get_embedding`; `newId` is the fresh `uuid.uuid4()` and
`now` the `datetime.now().isoformat()` timestamp. Mirrors the source
order: format the record, register the tags, embed the content, save the
record, save the embedding (rebuilding the index), reload and return. -/
def addMemory (embed : String → Option (List Rat)) (newId now : String)
    (s : Store) (content content_type : String)
    (metadata : List (String × String)) (tags : List String)
    (importance : Rat) : PyResult (Option Memory) :=
  let memory_data := formatMemoryData newId now content content_type tags metadata importance
  let s1 := if tags ≠ [] then addTags s tags else s
  match embed content with
  | none => .exn s1
  | some vec =>
    let s2 := saveMemory s1 memory_data
    match saveEmbedding s2 memory_data.id vec with
    | .ok s3 _ => .ok s3 (loadMemory s3 memory_data.id)
    | .exn s3 => .exn s3

/-- One `**kwargs` entry of `update_memory`. The record dict's keys are
exactly the eight `Memory` fields, so a kwarg either hits the dedicated
`tags` branch, overwrites one existing field, or (unknown key) is dropped. -/
inductive KwArg where
  | kid (v : String)
  | kcontent (v : String)
  | kcontent_type (v : String)
  | ktags (v : List String)
  | kmetadata (v : List (String × String))
  | kimportance (v : Rat)
  | kcreated_at (v : String)
  | kupdated_at (v : String)
  | kunknown (k : String)
deriving DecidableEq

/-- The `for key, value in kwargs.items()` loop body of `update_memory`. -/
def applyKwarg (sm : Store × Memory) : KwArg → Store × Memory
  | .ktags v => (addTags sm.1 v, { sm.2 with tags := v })
  | .kid v => (sm.1, { sm.2 with id := v })
  | .kcontent v => (sm.1, { sm.2 with content := v })
  | .kcontent_type v => (sm.1, { sm.2 with content_type := v })
  | .kmetadata v => (sm.1, { sm.2 with metadata := v })
  | .kimportance v => (sm.1, { sm.2 with importance := v })
  | .kcreated_at v => (sm.1, { sm.2 with created_at := v })
  | .kupdated_at v => (sm.1, { sm.2 with updated_at := v })
  | .kunknown _ => sm

/-- The tail of `update_memory` after the content branch decided the final
record dict and embedding: refresh `updated_at`, `_save_memory` (written
under the possibly kwarg-mutated `memory_data['id']`), then
`_save_embedding` under the original `memory_id` argument when an embedding
is present. -/
def updTail (now memory_id : String) (s2 : Store) (md2 : Memory)
    (emb2 : Option (List Rat)) : PyResult Bool :=
  let md3 := { md2 with updated_at := now }
  let s3 := saveMemory s2 md3
  match emb2 with
  | some e =>
    match saveEmbedding s3 memory_id e with
    | .ok s4 _ => .ok s4 true
    | .exn s4 => .exn s4
  | none => .ok s3 true

/-- Source `JsonDataAccess.update_memory`. Returns `false` when the id has
no record file. `if content:` is Python truthiness: `None` and the empty
string both skip the content branch. When content is truthy a fresh
embedding replaces any caller-supplied one. -/
def updateMemory (embed : String → Option (List Rat)) (now : String)
    (s : Store) (memory_id : String) (content : Option String)
    (embedding : Option (List Rat)) (kwargs : List KwArg) : PyResult Bool :=
  match loadMemory s memory_id with
  | none => .ok s false
  | some memory_data =>
    let sm := kwargs.foldl applyKwarg (s, memory_data)
    match content with
    | some c =>
      if c ≠ "" then
        match embed c with
        | none => .exn sm.1
        | some vec => updTail now memory_id sm.1 { sm.2 with content := c } (some vec)
      else updTail now memory_id sm.1 sm.2 embedding
    | none => updTail now memory_id sm.1 sm.2 embedding

/-- Source `JsonDataAccess.delete_memory`. `os.remove` failures (OSError)
are outside the model (the claims assume no filesystem I/O failure), so
`success` is always `True` — including when neither file exists — and the
index is then rebuilt (whose own failure would raise out of the call). -/
def deleteMemory (s : Store) (memory_id : String) : PyResult Bool :=
  let s1 := { s with records := removeA s.records memory_id,
                     vectors := removeA s.vectors memory_id }
  match buildFaissIndex s1 with
  | (s2, true) => .ok s2 true
  | (s2, false) => .exn s2

/-- Squared Euclidean (L2²) distance, the metric of `faiss.IndexFlatL2`. -/
def l2sq (u v : List Rat) : Rat :=
  (List.zipWith (fun a b => (a - b) * (a - b)) u v).sum

/-- The distance-to-similarity transform on line 312 of the source:
`1.0 - (D/2.0) if D <= 2.0 else 0.0`. -/
def simScore (d : Rat) : Rat := if d ≤ 2 then 1 - d / 2 else 0

/-- Ascending-distance order used to model the Faiss search result. -/
def distLe (a b : Nat × Rat) : Prop := a.2 ≤ b.2

instance : DecidableRel distLe := fun a b => inferInstanceAs (Decidable (a.2 ≤ b.2))

instance : IsTotal (Nat × Rat) distLe := ⟨fun a b => le_total a.2 b.2⟩

instance : IsTrans (Nat × Rat) distLe := ⟨fun _ _ _ h1 h2 => le_trans h1 h2⟩

/-- Descending-score order of `results.sort(key=lambda x: x[1], reverse=True)`. -/
def scoreGe (a b : Memory × Rat) : Prop := b.2 ≤ a.2

instance : DecidableRel scoreGe := fun a b => inferInstanceAs (Decidable (b.2 ≤ a.2))

instance : IsTotal (Memory × Rat) scoreGe := ⟨fun a b => le_total b.2 a.2⟩

instance : IsTrans (Memory × Rat) scoreGe := ⟨fun _ _ _ h1 h2 => le_trans h2 h1⟩

/-- Model of `faiss_index.search(query, top_k)`: every indexed vector is
scored with its L2² distance to the query; the `top_k` nearest come back in
ascending distance order (stable on ties, a determinization of Faiss).
Padding slots that Faiss fills with index `-1` when `top_k > ntotal` are
omitted here; the caller's `index != -1` guard skips exactly those. -/
def faissSearch (vecs : List (List Rat)) (q : List Rat) (top_k : Nat) :
    List (Nat × Rat) :=
  let scored := (List.range vecs.length).map (fun i => (i, l2sq q (vecs.getD i [])))
  (List.insertionSort distLe scored).take top_k

/-- Does the `content_type` filter of `find_similar_memories` drop this
record? (`if content_type and memory_data.get('content_type') != content_type`;
a `None` or empty-string filter is falsy and disables itself). -/
def ctFilterOut (content_type : Option String) (md : Memory) : Bool :=
  match content_type with
  | some c => c != "" && md.content_type != c
  | none => false

/-- Does the `tags` filter drop this record?
(`if tags and not all(tag in memory_data.get('tags', []) for tag in tags)`). -/
def tagFilterOut (tags : Option (List String)) (md : Memory) : Bool :=
  match tags with
  | some l => !l.isEmpty && !(l.all (fun t => md.tags.contains t))
  | none => false

/-- The result-collection loop of `find_similar_memories`: for each Faiss
hit within the id list, load the record, apply the post-hoc filters, attach
the similarity score. A missing record file makes `_load_memory` return
`None` and the subsequent `.get` raise (`none` here). -/
def fsLoop (s : Store) (content_type : Option String)
    (tags : Option (List String)) :
    List (Nat × Rat) → Option (List (Memory × Rat))
  | [] => some []
  | h :: rest =>
    if h.1 < s.indexIds.length then
      match loadMemory s (s.indexIds.getD h.1 "") with
      | none => none
      | some md =>
        if ctFilterOut content_type md || tagFilterOut tags md then
          fsLoop s content_type tags rest
        else
          match fsLoop s content_type tags rest with
          | none => none
          | some out => some ((md, simScore h.2) :: out)
    else fsLoop s content_type tags rest

/-- Source `JsonDataAccess.find_similar_memories`: empty index short-circuits
to `[]`; otherwise Faiss search, collect/filter/score, stable sort by
descending score, truncate to `top_k`. -/
def findSimilarMemories (s : Store) (query_embedding : List Rat)
    (content_type : Option String) (tags : Option (List String))
    (top_k : Nat) : Option (List (Memory × Rat)) :=
  if s.indexVecs.length = 0 then some []
  else
    match fsLoop s content_type tags (faissSearch s.indexVecs query_embedding top_k) with
    | none => none
    | some results => some ((List.insertionSort scoreGe results).take top_k)

/-- Source `JsonDataAccess.search_memories`: embed the query text (a raising
provider aborts the call), then search by vector. -/
def searchMemories (embed : String → Option (List Rat)) (s : Store)
    (query_text : String) (content_type : Option String)
    (tags : Option (List String)) (top_k : Nat) :
    Option (List (Memory × Rat)) :=
  match embed query_text with
  | none => none
  | some qv => findSimilarMemories s qv content_type tags top_k

/-- One mutating call on the store, for reasoning about call sequences. -/
inductive Op where
  | add (newId now content content_type : String)
        (metadata : List (String × String)) (tags : List String)
        (importance : Rat)
  | update (now memory_id : String) (content : Option String)
           (embedding : Option (List Rat)) (kwargs : List KwArg)
  | del (memory_id : String)

/-- Run one mutating call; the resulting state is kept whether the call
returned or raised. -/
def runOp (embed : String → Option (List Rat)) (s : Store) : Op → Store
  | .add newId now c ct md tg imp => (addMemory embed newId now s c ct md tg imp).state
  | .update now mid c e kw => (updateMemory embed now s mid c e kw).state
  | .del mid => (deleteMemory s mid).state

/-- Run a sequence of mutating calls. -/
def runOps (embed : String → Option (List Rat)) (s : Store) (ops : List Op) : Store :=
  ops.foldl (runOp embed) s

/-- A store as built by `__init__` on a fresh data directory. -/
def emptyStore (dim : Nat) : Store :=
  { records := [], vectors := [], tagsFile := [], memTags := [],
    indexIds := [], indexVecs := [], dimension := dim }

@[simp]
theorem addTags_records (s : Store) (l : List String) :
    (addTags s l).records = s.records := rfl

@[simp]
theorem addTags_vectors (s : Store) (l : List String) :
    (addTags s l).vectors = s.vectors := rfl

@[simp]
theorem addTags_indexIds (s : Store) (l : List String) :
    (addTags s l).indexIds = s.indexIds := rfl

@[simp]
theorem addTags_indexVecs (s : Store) (l : List String) :
    (addTags s l).indexVecs = s.indexVecs := rfl

@[simp]
theorem addTags_dimension (s : Store) (l : List String) :
    (addTags s l).dimension = s.dimension := rfl

theorem subset_foldl_insertTag (l0 : List String) (ts : List String) :
    l0 ⊆ ts.foldl (fun acc t => if t ∈ acc then acc else acc ++ [t]) l0 := by
  induction ts generalizing l0 with
  | nil => exact List.Subset.refl l0
  | cons t rest ih =>
    refine List.Subset.trans ?_ (ih _)
    by_cases ht : t ∈ l0
    · simp [ht]
    · simp only [ht, if_false]
      exact List.subset_append_left _ _

theorem addTags_tagsFile_subset (s : Store) (l : List String)
    (h : s.tagsFile = s.memTags) : s.tagsFile ⊆ (addTags s l).tagsFile := by
  intro a ha
  exact subset_foldl_insertTag s.memTags l (h ▸ ha)

@[simp]
theorem addTags_tagsSync (s : Store) (l : List String) :
    (addTags s l).tagsFile = (addTags s l).memTags := rfl

@[simp]
theorem buildFaissIndex_records (s : Store) :
    (buildFaissIndex s).1.records = s.records := by
  unfold buildFaissIndex
  cases indexPairs s with
  | nil => rfl
  | cons p rest =>
    dsimp only
    split_ifs <;> rfl

@[simp]
theorem buildFaissIndex_vectors (s : Store) :
    (buildFaissIndex s).1.vectors = s.vectors := by
  unfold buildFaissIndex
  cases indexPairs s with
  | nil => rfl
  | cons p rest =>
    dsimp only
    split_ifs <;> rfl

@[simp]
theorem buildFaissIndex_tagsFile (s : Store) :
    (buildFaissIndex s).1.tagsFile = s.tagsFile := by
  unfold buildFaissIndex
  cases indexPairs s with
  | nil => rfl
  | cons p rest =>
    dsimp only
    split_ifs <;> rfl

@[simp]
theorem buildFaissIndex_memTags (s : Store) :
    (buildFaissIndex s).1.memTags = s.memTags := by
  unfold buildFaissIndex
  cases indexPairs s with
  | nil => rfl
  | cons p rest =>
    dsimp only
    split_ifs <;> rfl

@[simp]
theorem buildFaissIndex_dimension (s : Store) :
    (buildFaissIndex s).1.dimension = s.dimension := by
  unfold buildFaissIndex
  cases indexPairs s with
  | nil => rfl
  | cons p rest =>
    dsimp only
    split_ifs <;> rfl

theorem saveEmbedding_state (s : Store) (mid : String) (v : List Rat) :
    (saveEmbedding s mid v).state =
      (buildFaissIndex { s with vectors := setA s.vectors mid v }).1 := by
  unfold saveEmbedding
  cases h : buildFaissIndex { s with vectors := setA s.vectors mid v } with
  | mk s2 b => cases b <;> simp [h, PyResult.state]

theorem deleteMemory_state (s : Store) (mid : String) :
    (deleteMemory s mid).state =
      (buildFaissIndex { s with records := removeA s.records mid,
                                vectors := removeA s.vectors mid }).1 := by
  unfold deleteMemory
  cases h : buildFaissIndex { s with records := removeA s.records mid,
                                     vectors := removeA s.vectors mid } with
  | mk s2 b => cases b <;> simp [h, PyResult.state]

@[simp]
theorem kwargsFold_records (kwargs : List KwArg) (s : Store) (m : Memory) :
    (kwargs.foldl applyKwarg (s, m)).1.records = s.records := by
  induction kwargs generalizing s m with
  | nil => rfl
  | cons kw rest ih => cases kw <;> simp [List.foldl_cons, applyKwarg, ih]

@[simp]
theorem kwargsFold_vectors (kwargs : List KwArg) (s : Store) (m : Memory) :
    (kwargs.foldl applyKwarg (s, m)).1.vectors = s.vectors := by
  induction kwargs generalizing s m with
  | nil => rfl
  | cons kw rest ih => cases kw <;> simp [List.foldl_cons, applyKwarg, ih]

@[simp]
theorem kwargsFold_indexIds (kwargs : List KwArg) (s : Store) (m : Memory) :
    (kwargs.foldl applyKwarg (s, m)).1.indexIds = s.indexIds := by
  induction kwargs generalizing s m with
  | nil => rfl
  | cons kw rest ih => cases kw <;> simp [List.foldl_cons, applyKwarg, ih]

@[simp]
theorem kwargsFold_indexVecs (kwargs : List KwArg) (s : Store) (m : Memory) :
    (kwargs.foldl applyKwarg (s, m)).1.indexVecs = s.indexVecs := by
  induction kwargs generalizing s m with
  | nil => rfl
  | cons kw rest ih => cases kw <;> simp [List.foldl_cons, applyKwarg, ih]

@[simp]
theorem kwargsFold_dimension (kwargs : List KwArg) (s : Store) (m : Memory) :
    (kwargs.foldl applyKwarg (s, m)).1.dimension = s.dimension := by
  induction kwargs generalizing s m with
  | nil => rfl
  | cons kw rest ih => cases kw <;> simp [List.foldl_cons, applyKwarg, ih]

theorem kwargsFold_id (kwargs : List KwArg) (s : Store) (m : Memory)
    (h : ∀ v, KwArg.kid v ∉ kwargs) :
    (kwargs.foldl applyKwarg (s, m)).2.id = m.id := by
  induction kwargs generalizing s m with
  | nil => rfl
  | cons kw rest ih =>
    have hrest : ∀ v, KwArg.kid v ∉ rest := fun v hv =>
      h v (List.mem_cons_of_mem _ hv)
    cases kw with
    | kid v => exact absurd (List.mem_cons_self _ _) (h v)
    | ktags v => simpa [List.foldl_cons, applyKwarg] using ih _ _ hrest
    | kcontent v => simpa [List.foldl_cons, applyKwarg] using ih _ _ hrest
    | kcontent_type v => simpa [List.foldl_cons, applyKwarg] using ih _ _ hrest
    | kmetadata v => simpa [List.foldl_cons, applyKwarg] using ih _ _ hrest
    | kimportance v => simpa [List.foldl_cons, applyKwarg] using ih _ _ hrest
    | kcreated_at v => simpa [List.foldl_cons, applyKwarg] using ih _ _ hrest
    | kupdated_at v => simpa [List.foldl_cons, applyKwarg] using ih _ _ hrest
    | kunknown k => simpa [List.foldl_cons, applyKwarg] using ih _ _ hrest

@[simp]
theorem PyResult.state_ok (s : Store) (v : α) : (PyResult.ok s v).state = s := rfl

@[simp]
theorem PyResult.state_exn (s : Store) : (PyResult.exn (α := α) s).state = s := rfl

theorem addMemory_embed_fail (embed : String → Option (List Rat))
    (newId now : String) (s : Store) (content content_type : String)
    (metadata : List (String × String)) (tags : List String)
    (importance : Rat) (h : embed content = none) :
    addMemory embed newId now s content content_type metadata tags importance =
      .exn (if tags ≠ [] then addTags s tags else s) := by
  simp [addMemory, h]

/-- C1 (amended): when the embedding provider raises during `add_memory`,
the call raises and no record file, no vector file and no index change
happens for that call — but the tag registry has already been written (the
source calls `_add_tags(tags)` before `get_embedding`), and that write
persists. -/
theorem add_embed_fail_no_record_or_vector (embed : String → Option (List Rat))
    (newId now : String) (s : Store) (content content_type : String)
    (metadata : List (String × String)) (tags : List String)
    (importance : Rat) (h : embed content = none) :
    (∃ s1 : Store,
      addMemory embed newId now s content content_type metadata tags importance = .exn s1) ∧
    (addMemory embed newId now s content content_type metadata tags importance).state.records
      = s.records ∧
    (addMemory embed newId now s content content_type metadata tags importance).state.vectors
      = s.vectors ∧
    (addMemory embed newId now s content content_type metadata tags importance).state.indexIds
      = s.indexIds ∧
    (addMemory embed newId now s content content_type metadata tags importance).state.indexVecs
      = s.indexVecs ∧
    (addMemory embed newId now s content content_type metadata tags importance).state.tagsFile
      = (if tags ≠ [] then addTags s tags else s).tagsFile := by
  rw [addMemory_embed_fail embed newId now s content content_type metadata tags importance h]
  refine ⟨⟨_, rfl⟩, ?_, ?_, ?_, ?_, ?_⟩ <;>
    by_cases htg : tags = [] <;> simp [htg]

/-- C1 witness: concrete instance of the amended atomicity theorem, on an
empty store with a provider that always raises. -/
theorem add_embed_fail_no_record_or_vector_witness :
    (fun (_ : String) => (none : Option (List Rat))) "c" = none ∧
    ((∃ s1 : Store,
      addMemory (fun _ => none) "id1" "t1" (emptyStore 1) "c" "note" [] ["w"] 1 = .exn s1) ∧
    (addMemory (fun _ => none) "id1" "t1" (emptyStore 1) "c" "note" [] ["w"] 1).state.records
      = (emptyStore 1).records ∧
    (addMemory (fun _ => none) "id1" "t1" (emptyStore 1) "c" "note" [] ["w"] 1).state.vectors
      = (emptyStore 1).vectors ∧
    (addMemory (fun _ => none) "id1" "t1" (emptyStore 1) "c" "note" [] ["w"] 1).state.indexIds
      = (emptyStore 1).indexIds ∧
    (addMemory (fun _ => none) "id1" "t1" (emptyStore 1) "c" "note" [] ["w"] 1).state.indexVecs
      = (emptyStore 1).indexVecs ∧
    (addMemory (fun _ => none) "id1" "t1" (emptyStore 1) "c" "note" [] ["w"] 1).state.tagsFile
      = (if ["w"] ≠ ([] : List String) then addTags (emptyStore 1) ["w"]
         else emptyStore 1).tagsFile) :=
  ⟨rfl, add_embed_fail_no_record_or_vector (fun _ => none) "id1" "t1" (emptyStore 1)
    "c" "note" [] ["w"] 1 rfl⟩

/-- C1 counterexample: the claim as stated says nothing is written to the
persisted tag registry when embedding fails; on an empty store with
`tags=["w"]` and a raising provider, `tags.json` ends up holding `["w"]`. -/
theorem add_embed_fail_writes_tags_cex :
    (addMemory (fun _ => none) "id1" "t1" (emptyStore 1) "c" "note" [] ["w"] 1).state.tagsFile
      ≠ (emptyStore 1).tagsFile := by decide

theorem indexPairs_mem_vectors {s : Store} {p : String × List Rat}
    (h : p ∈ indexPairs s) : p ∈ s.vectors := by
  unfold indexPairs at h
  rcases List.mem_filterMap.mp h with ⟨q, _, hmap⟩
  cases hv : lookupA s.vectors q.1 with
  | none => simp [hv] at hmap
  | some v =>
    simp only [hv, Option.map_some] at hmap
    cases hmap
    exact lookupA_mem hv

theorem buildFaissIndex_success (s : Store)
    (h : ∀ p ∈ indexPairs s, p.2.length = s.dimension) :
    buildFaissIndex s =
      ({ s with indexIds := (indexPairs s).map Prod.fst,
                indexVecs := (indexPairs s).map Prod.snd }, true) := by
  unfold buildFaissIndex
  cases hp : indexPairs s with
  | nil => simp
  | cons p rest =>
    have h1 : ∀ q ∈ (p :: rest), q.2.length = s.dimension := hp ▸ h
    have hpd : p.2.length = s.dimension := h1 p (List.mem_cons_self _ _)
    have hall : (p :: rest).all (fun q => decide (q.2.length = p.2.length)) = true := by
      rw [List.all_eq_true]
      intro q hq
      simp [h1 q hq, hpd]
    simp [hall, hpd]
    exact fun x x1 hx => h1 (x, x1) (List.mem_cons_of_mem _ hx)

theorem buildFaissIndex_fail (s : Store)
    (h : ∃ p ∈ indexPairs s, p.2.length ≠ s.dimension) :
    (buildFaissIndex s).2 = false := by
  unfold buildFaissIndex
  cases hp : indexPairs s with
  | nil =>
    rw [hp] at h
    simp at h
  | cons p rest =>
    rw [hp] at h
    dsimp only
    by_cases hall : (p :: rest).all (fun q => decide (q.2.length = p.2.length)) = true
    · rw [if_pos hall]
      obtain ⟨q, hq, hqd⟩ := h
      have hqp : q.2.length = p.2.length := by
        have := List.all_eq_true.mp hall q hq
        exact of_decide_eq_true this
      have hpd : p.2.length ≠ s.dimension := fun hc => hqd (hqp.trans hc)
      rw [if_neg hpd]
    · rw [if_neg hall]

/-- The state of `delete_memory` after both `os.remove` calls, before the
index rebuild. -/
def delState (s : Store) (mid : String) : Store :=
  { s with records := removeA s.records mid, vectors := removeA s.vectors mid }

theorem deleteMemory_ok (s : Store) (mid : String)
    (hdim : ∀ p ∈ s.vectors, p.2.length = s.dimension) :
    deleteMemory s mid = .ok (buildFaissIndex (delState s mid)).1 true := by
  unfold deleteMemory
  have hpair : ∀ p ∈ indexPairs (delState s mid),
      p.2.length = (delState s mid).dimension := by
    intro p hp
    have hv : p ∈ (delState s mid).vectors := indexPairs_mem_vectors hp
    exact hdim p (mem_removeA hv)
  have hb := buildFaissIndex_success _ hpair
  show (match buildFaissIndex (delState s mid) with
    | (s2, true) => PyResult.ok s2 true
    | (s2, false) => PyResult.exn s2) = .ok (buildFaissIndex (delState s mid)).1 true
  rw [hb]

/-- C3 (amended): with no OS-level I/O failure, `delete_memory` returns
`True` whether or not the id has a persisted record or vector — an unknown
id is treated as a successful no-op, not as `False` — and it never raises;
deleting the same id twice returns `True` both times, the second call being
a no-op on an id that no longer exists. -/
theorem delete_returns_true_always (s : Store) (mid : String)
    (hdim : ∀ p ∈ s.vectors, p.2.length = s.dimension) :
    ∃ s2 s3 : Store, deleteMemory s mid = .ok s2 true ∧
      lookupA s2.records mid = none ∧ lookupA s2.vectors mid = none ∧
      deleteMemory s2 mid = .ok s3 true := by
  have h1 := deleteMemory_ok s mid hdim
  have hdim2 : ∀ p ∈ (buildFaissIndex (delState s mid)).1.vectors,
      p.2.length = (buildFaissIndex (delState s mid)).1.dimension := by
    intro p hp
    rw [buildFaissIndex_vectors] at hp
    rw [buildFaissIndex_dimension]
    exact hdim p (mem_removeA hp)
  have h2 := deleteMemory_ok _ mid hdim2
  refine ⟨_, _, h1, ?_, ?_, h2⟩
  · rw [buildFaissIndex_records]
    exact lookupA_removeA_self _ _
  · rw [buildFaissIndex_vectors]
    exact lookupA_removeA_self _ _

/-- C3 witness: instance of the amended delete theorem on a one-record
store; the second delete acts on an id that no longer exists and still
returns `True`. -/
theorem delete_returns_true_always_witness :
    (∀ p ∈ (Store.mk [("a", Memory.mk "a" "c" "note" [] [] 1 "t" "t")]
        [("a", [(0 : Rat)])] [] [] ["a"] [[(0 : Rat)]] 1).vectors,
      p.2.length = (Store.mk [("a", Memory.mk "a" "c" "note" [] [] 1 "t" "t")]
        [("a", [(0 : Rat)])] [] [] ["a"] [[(0 : Rat)]] 1).dimension) ∧
    (∃ s2 s3 : Store,
      deleteMemory (Store.mk [("a", Memory.mk "a" "c" "note" [] [] 1 "t" "t")]
        [("a", [(0 : Rat)])] [] [] ["a"] [[(0 : Rat)]] 1) "a" = .ok s2 true ∧
      lookupA s2.records "a" = none ∧ lookupA s2.vectors "a" = none ∧
      deleteMemory s2 "a" = .ok s3 true) :=
  ⟨by decide, delete_returns_true_always _ "a" (by decide)⟩

/-- C3 counterexample: on a store with no record and no vector for the id,
`delete_memory` returns `True`, not `False` as the claim states; and after
deleting a stored id, a second delete also returns `True`, not `False`. -/
theorem delete_unknown_returns_true_cex :
    deleteMemory (emptyStore 1) "missing" = .ok (emptyStore 1) true ∧
    deleteMemory (Store.mk [("a", Memory.mk "a" "c" "note" [] [] 1 "t" "t")]
        [("a", [(0 : Rat)])] [] [] ["a"] [[(0 : Rat)]] 1) "a"
      = .ok (emptyStore 1) true ∧
    deleteMemory (emptyStore 1) "a" = .ok (emptyStore 1) true := by
  refine ⟨?_, ?_, ?_⟩ <;> decide

theorem indexPairs_mem_of {s : Store} {k : String} {m : Memory} {v : List Rat}
    (hr : (k, m) ∈ s.records) (hv : lookupA s.vectors k = some v) :
    (k, v) ∈ indexPairs s := by
  unfold indexPairs
  exact List.mem_filterMap.mpr ⟨(k, m), hr, by simp [hv]⟩

/-- The state of `_save_embedding` right after `np.save`, before the index
rebuild. -/
def putState (s : Store) (mid : String) (v : List Rat) : Store :=
  { s with vectors := setA s.vectors mid v }

theorem saveEmbedding_exn_of_fail (s : Store) (mid : String) (v : List Rat)
    (hfail : (buildFaissIndex (putState s mid v)).2 = false) :
    saveEmbedding s mid v = .exn (buildFaissIndex (putState s mid v)).1 := by
  unfold saveEmbedding
  show (match buildFaissIndex (putState s mid v) with
    | (s2, true) => PyResult.ok s2 ()
    | (s2, false) => PyResult.exn s2)
    = .exn (buildFaissIndex (putState s mid v)).1
  cases hb : buildFaissIndex (putState s mid v) with
  | mk s2 b =>
    rw [hb] at hfail
    cases b
    · rfl
    · exact absurd hfail (by simp)

/-- C4 (amended): `_save_embedding` performs no dimension validation and
raises no ValidationError: the vector file is written unconditionally by
`np.save`; when the id has a persisted record and the vector's length
differs from the configured dimension, the subsequent full index rebuild
raises out of the call — with the wrong-sized vector file left on disk. -/
theorem put_wrong_dim_writes_then_raises (s : Store) (mid : String)
    (vec : List Rat) (hrec : (lookupA s.records mid).isSome)
    (hlen : vec.length ≠ s.dimension) :
    (∃ s2 : Store, saveEmbedding s mid vec = .exn s2) ∧
    lookupA (saveEmbedding s mid vec).state.vectors mid = some vec := by
  have hvmem : lookupA (putState s mid vec).vectors mid = some vec :=
    lookupA_setA_self s.vectors mid vec
  have hfail : (buildFaissIndex (putState s mid vec)).2 = false := by
    apply buildFaissIndex_fail
    obtain ⟨m, hm⟩ : ∃ m, lookupA s.records mid = some m := by
      cases h : lookupA s.records mid with
      | none => rw [h] at hrec; simp at hrec
      | some m => exact ⟨m, rfl⟩
    exact ⟨(mid, vec), indexPairs_mem_of (lookupA_mem hm) hvmem, hlen⟩
  refine ⟨⟨_, saveEmbedding_exn_of_fail s mid vec hfail⟩, ?_⟩
  rw [saveEmbedding_state, buildFaissIndex_vectors]
  exact hvmem

/-- C4 witness: instance of the amended theorem — a length-1 vector pushed
into a dimension-2 store that has a record file for the id. -/
theorem put_wrong_dim_writes_then_raises_witness :
    ((lookupA (Store.mk [("a", Memory.mk "a" "c" "note" [] [] 1 "t" "t")]
        [] [] [] [] [] 2).records "a").isSome ∧
     [(0 : Rat)].length ≠ (Store.mk [("a", Memory.mk "a" "c" "note" [] [] 1 "t" "t")]
        [] [] [] [] [] 2).dimension) ∧
    ((∃ s2 : Store, saveEmbedding (Store.mk [("a", Memory.mk "a" "c" "note" [] [] 1 "t" "t")]
        [] [] [] [] [] 2) "a" [(0 : Rat)] = .exn s2) ∧
     lookupA (saveEmbedding (Store.mk [("a", Memory.mk "a" "c" "note" [] [] 1 "t" "t")]
        [] [] [] [] [] 2) "a" [(0 : Rat)]).state.vectors "a" = some [(0 : Rat)]) :=
  ⟨⟨by decide, by decide⟩,
    put_wrong_dim_writes_then_raises _ "a" [(0 : Rat)] (by decide) (by decide)⟩

/-- C4 counterexample: the claim says a wrong-length vector fails validation
and no vector file is written; in fact, on a dimension-2 store holding a
record for id `a`, putting the length-1 vector `[0]` writes the vector file
(it is observable in the post-raise state) and the call raises from the
index rebuild, not from any validation. -/
theorem put_wrong_dim_writes_file_cex :
    saveEmbedding (Store.mk [("a", Memory.mk "a" "c" "note" [] [] 1 "t" "t")]
        [] [] [] [] [] 2) "a" [(0 : Rat)]
      = .exn (Store.mk [("a", Memory.mk "a" "c" "note" [] [] 1 "t" "t")]
        [("a", [(0 : Rat)])] [] [] [] [] 2) ∧
    lookupA (Store.mk [("a", Memory.mk "a" "c" "note" [] [] 1 "t" "t")]
        [("a", [(0 : Rat)])] [] [] [] [] 2).vectors "a" = some [(0 : Rat)] := by
  exact ⟨by decide, by decide⟩

/-- Source `JsonDataAccess.get_memory_by_id` (delegates to `_load_memory`). -/
def getMemoryById (s : Store) (memory_id : String) : Option Memory :=
  loadMemory s memory_id

@[simp]
theorem saveMemory_records (s : Store) (m : Memory) :
    (saveMemory s m).records = setA s.records m.id m := rfl

@[simp]
theorem saveMemory_vectors (s : Store) (m : Memory) :
    (saveMemory s m).vectors = s.vectors := rfl

@[simp]
theorem saveMemory_tagsFile (s : Store) (m : Memory) :
    (saveMemory s m).tagsFile = s.tagsFile := rfl

@[simp]
theorem saveMemory_memTags (s : Store) (m : Memory) :
    (saveMemory s m).memTags = s.memTags := rfl

@[simp]
theorem saveMemory_indexIds (s : Store) (m : Memory) :
    (saveMemory s m).indexIds = s.indexIds := rfl

@[simp]
theorem saveMemory_dimension (s : Store) (m : Memory) :
    (saveMemory s m).dimension = s.dimension := rfl

@[simp]
theorem putState_vectors (s : Store) (mid : String) (v : List Rat) :
    (putState s mid v).vectors = setA s.vectors mid v := rfl

@[simp]
theorem putState_records (s : Store) (mid : String) (v : List Rat) :
    (putState s mid v).records = s.records := rfl

@[simp]
theorem putState_tagsFile (s : Store) (mid : String) (v : List Rat) :
    (putState s mid v).tagsFile = s.tagsFile := rfl

@[simp]
theorem putState_dimension (s : Store) (mid : String) (v : List Rat) :
    (putState s mid v).dimension = s.dimension := rfl

@[simp]
theorem formatMemoryData_id (a b c d : String) (tg : List String)
    (md : List (String × String)) (imp : Rat) :
    (formatMemoryData a b c d tg md imp).id = a := rfl

@[simp]
theorem formatMemoryData_content (a b c d : String) (tg : List String)
    (md : List (String × String)) (imp : Rat) :
    (formatMemoryData a b c d tg md imp).content = c := rfl

@[simp]
theorem formatMemoryData_content_type (a b c d : String) (tg : List String)
    (md : List (String × String)) (imp : Rat) :
    (formatMemoryData a b c d tg md imp).content_type = d := rfl

@[simp]
theorem formatMemoryData_tags (a b c d : String) (tg : List String)
    (md : List (String × String)) (imp : Rat) :
    (formatMemoryData a b c d tg md imp).tags = tg := rfl

@[simp]
theorem formatMemoryData_metadata (a b c d : String) (tg : List String)
    (md : List (String × String)) (imp : Rat) :
    (formatMemoryData a b c d tg md imp).metadata = md := rfl

@[simp]
theorem formatMemoryData_importance (a b c d : String) (tg : List String)
    (md : List (String × String)) (imp : Rat) :
    (formatMemoryData a b c d tg md imp).importance = imp := rfl

theorem buildFaissIndex_snd_true (s : Store)
    (h : ∀ p ∈ indexPairs s, p.2.length = s.dimension) :
    (buildFaissIndex s).2 = true := by
  rw [buildFaissIndex_success s h]

theorem saveEmbedding_ok_of_success (s : Store) (mid : String) (v : List Rat)
    (hsucc : (buildFaissIndex (putState s mid v)).2 = true) :
    saveEmbedding s mid v = .ok (buildFaissIndex (putState s mid v)).1 () := by
  unfold saveEmbedding
  show (match buildFaissIndex (putState s mid v) with
    | (s2, true) => PyResult.ok s2 ()
    | (s2, false) => PyResult.exn s2)
    = .ok (buildFaissIndex (putState s mid v)).1 ()
  cases hb : buildFaissIndex (putState s mid v) with
  | mk s2 b =>
    rw [hb] at hsucc
    cases b
    · exact absurd hsucc (by simp)
    · rfl

theorem addMemory_embed_some (embed : String → Option (List Rat))
    (newId now : String) (s : Store) (content content_type : String)
    (metadata : List (String × String)) (tags : List String)
    (importance : Rat) (vec : List Rat) (hemb : embed content = some vec) :
    addMemory embed newId now s content content_type metadata tags importance =
      (match saveEmbedding (saveMemory (if tags ≠ [] then addTags s tags else s)
          (formatMemoryData newId now content content_type tags metadata importance))
          newId vec with
       | .ok s3 _ => .ok s3 (loadMemory s3 newId)
       | .exn s3 => .exn s3) := by
  simp only [addMemory, hemb, formatMemoryData_id]

/-- C5: round trip — with a working provider (and dimension-consistent
vectors so the index rebuild succeeds), `add_memory` returns the freshly
persisted record, and `get_memory_by_id` on its id yields a record whose
`content`, `content_type`, `tags`, `metadata` (and `importance`) equal the
values passed to add; the embedding is not part of the record. -/
theorem add_get_round_trip (embed : String → Option (List Rat))
    (newId now : String) (s : Store) (content content_type : String)
    (metadata : List (String × String)) (tags : List String)
    (importance : Rat) (vec : List Rat)
    (hemb : embed content = some vec)
    (hvlen : vec.length = s.dimension)
    (hdim : ∀ p ∈ s.vectors, p.2.length = s.dimension) :
    ∃ (s3 : Store) (m : Memory),
      addMemory embed newId now s content content_type metadata tags importance
        = .ok s3 (some m) ∧
      getMemoryById s3 m.id = some m ∧
      m.content = content ∧ m.content_type = content_type ∧
      m.tags = tags ∧ m.metadata = metadata ∧ m.importance = importance := by
  have hS1v : (if tags ≠ [] then addTags s tags else s).vectors = s.vectors := by
    by_cases htg : tags = [] <;> simp [htg]
  have hS1d : (if tags ≠ [] then addTags s tags else s).dimension = s.dimension := by
    by_cases htg : tags = [] <;> simp [htg]
  have hsucc : (buildFaissIndex (putState
      (saveMemory (if tags ≠ [] then addTags s tags else s)
        (formatMemoryData newId now content content_type tags metadata importance))
      newId vec)).2 = true := by
    apply buildFaissIndex_snd_true
    intro p hp
    have hv := indexPairs_mem_vectors hp
    rw [putState_vectors, saveMemory_vectors, hS1v] at hv
    rw [putState_dimension, saveMemory_dimension, hS1d]
    rcases mem_setA hv with h | h
    · rw [h]
      exact hvlen
    · exact hdim p h
  have heq := addMemory_embed_some embed newId now s content content_type
    metadata tags importance vec hemb
  rw [saveEmbedding_ok_of_success _ _ _ hsucc] at heq
  dsimp only at heq
  have hload : loadMemory (buildFaissIndex (putState
      (saveMemory (if tags ≠ [] then addTags s tags else s)
        (formatMemoryData newId now content content_type tags metadata importance))
      newId vec)).1 newId
      = some (formatMemoryData newId now content content_type tags metadata importance) := by
    unfold loadMemory
    rw [buildFaissIndex_records, putState_records, saveMemory_records,
      formatMemoryData_id]
    exact lookupA_setA_self _ _ _
  rw [hload] at heq
  exact ⟨_, _, heq,
    by unfold getMemoryById; rw [formatMemoryData_id]; exact hload,
    rfl, rfl, rfl, rfl, rfl⟩

/-- C5 witness: concrete round trip on an empty dimension-1 store with a
constant provider. -/
theorem add_get_round_trip_witness :
    ((fun (_ : String) => some [(0 : Rat)]) "hello" = some [(0 : Rat)] ∧
     [(0 : Rat)].length = (emptyStore 1).dimension ∧
     (∀ p ∈ (emptyStore 1).vectors, p.2.length = (emptyStore 1).dimension)) ∧
    (∃ (s3 : Store) (m : Memory),
      addMemory (fun _ => some [(0 : Rat)]) "id1" "t1" (emptyStore 1) "hello" "note"
          [("k", "v")] ["w"] 1 = .ok s3 (some m) ∧
      getMemoryById s3 m.id = some m ∧
      m.content = "hello" ∧ m.content_type = "note" ∧
      m.tags = ["w"] ∧ m.metadata = [("k", "v")] ∧ m.importance = 1) :=
  ⟨⟨rfl, rfl, by decide⟩,
    add_get_round_trip (fun _ => some [(0 : Rat)]) "id1" "t1" (emptyStore 1)
      "hello" "note" [("k", "v")] ["w"] 1 [(0 : Rat)] rfl rfl (by decide)⟩

theorem pyMatch_state (r : PyResult Unit) :
    (match r with
     | PyResult.ok s4 _ => PyResult.ok s4 true
     | PyResult.exn s4 => PyResult.exn s4).state = r.state := by
  cases r <;> rfl

theorem updTail_none (now mid : String) (s2 : Store) (md2 : Memory) :
    updTail now mid s2 md2 none =
      .ok (saveMemory s2 { md2 with updated_at := now }) true := rfl

theorem updTail_some (now mid : String) (s2 : Store) (md2 : Memory) (e : List Rat) :
    updTail now mid s2 md2 (some e) =
      match saveEmbedding (saveMemory s2 { md2 with updated_at := now }) mid e with
      | PyResult.ok s4 _ => PyResult.ok s4 true
      | PyResult.exn s4 => PyResult.exn s4 := rfl

theorem updTail_state_some (now mid : String) (s2 : Store) (md2 : Memory) (e : List Rat) :
    (updTail now mid s2 md2 (some e)).state =
      (buildFaissIndex (putState (saveMemory s2 { md2 with updated_at := now })
        mid e)).1 := by
  rw [updTail_some, pyMatch_state, saveEmbedding_state]
  rfl

theorem updTail_state_records (now mid : String) (s2 : Store) (md2 : Memory)
    (emb2 : Option (List Rat)) :
    (updTail now mid s2 md2 emb2).state.records =
      setA s2.records md2.id { md2 with updated_at := now } := by
  cases emb2 with
  | none => rfl
  | some e => rw [updTail_state_some, buildFaissIndex_records, putState_records,
      saveMemory_records]

theorem updateMemory_found (embed : String → Option (List Rat)) (now : String)
    (s : Store) (mid : String) (content : Option String)
    (embedding : Option (List Rat)) (kwargs : List KwArg) (m0 : Memory)
    (hm : lookupA s.records mid = some m0) :
    updateMemory embed now s mid content embedding kwargs =
      (match content with
       | some c =>
         if c ≠ "" then
           match embed c with
           | none => .exn (kwargs.foldl applyKwarg (s, m0)).1
           | some vec => updTail now mid (kwargs.foldl applyKwarg (s, m0)).1
               { (kwargs.foldl applyKwarg (s, m0)).2 with content := c } (some vec)
         else updTail now mid (kwargs.foldl applyKwarg (s, m0)).1
             (kwargs.foldl applyKwarg (s, m0)).2 embedding
       | none => updTail now mid (kwargs.foldl applyKwarg (s, m0)).1
           (kwargs.foldl applyKwarg (s, m0)).2 embedding) := by
  unfold updateMemory loadMemory
  rw [hm]

/-- C8 (amended): provided no `id` keyword argument is passed, a record's id
is immutable under `update_memory`: whatever other kwargs are supplied, the
set of record files (by id) is unchanged, and the record persisted for the
updated id still carries that id. (A caller-supplied `id=` kwarg defeats
this: the kwargs loop overwrites any existing record key, which is why the
hypothesis excludes exactly that.) -/
theorem update_never_moves_id (embed : String → Option (List Rat)) (now : String)
    (s : Store) (mid : String) (content : Option String)
    (embedding : Option (List Rat)) (kwargs : List KwArg) (m0 : Memory)
    (hm : lookupA s.records mid = some m0) (hid : m0.id = mid)
    (hnok : ∀ v, KwArg.kid v ∉ kwargs) :
    (updateMemory embed now s mid content embedding kwargs).state.records.map Prod.fst
      = s.records.map Prod.fst ∧
    (∃ m1 : Memory,
      lookupA (updateMemory embed now s mid content embedding kwargs).state.records mid
        = some m1 ∧ m1.id = mid) := by
  have hSMrec : (kwargs.foldl applyKwarg (s, m0)).1.records = s.records :=
    kwargsFold_records _ _ _
  have hSMid : (kwargs.foldl applyKwarg (s, m0)).2.id = m0.id :=
    kwargsFold_id _ _ _ hnok
  have hsome : (lookupA s.records mid).isSome = true := by rw [hm]; rfl
  have tailcase : ∀ (md2 : Memory) (emb2 : Option (List Rat)), md2.id = mid →
      (updTail now mid (kwargs.foldl applyKwarg (s, m0)).1 md2 emb2).state.records.map
        Prod.fst = s.records.map Prod.fst ∧
      (∃ m1 : Memory,
        lookupA (updTail now mid (kwargs.foldl applyKwarg (s, m0)).1 md2 emb2).state.records
          mid = some m1 ∧ m1.id = mid) := by
    intro md2 emb2 hmd
    have hrec : (updTail now mid (kwargs.foldl applyKwarg (s, m0)).1 md2 emb2).state.records
        = setA s.records mid { md2 with updated_at := now } := by
      rw [updTail_state_records, hSMrec, hmd]
    refine ⟨?_, { md2 with updated_at := now }, ?_, hmd⟩
    · rw [hrec]
      exact setA_map_fst_of_isSome hsome _
    · rw [hrec]
      exact lookupA_setA_self _ _ _
  rw [updateMemory_found embed now s mid content embedding kwargs m0 hm]
  cases content with
  | none => exact tailcase _ embedding (hSMid.trans hid)
  | some c =>
    dsimp only
    by_cases hc : c = ""
    · subst hc
      simp only [ne_eq, not_true_eq_false, if_false]
      exact tailcase _ embedding (hSMid.trans hid)
    · rw [if_pos hc]
      cases hec : embed c with
      | none =>
        constructor
        · simp [hSMrec]
        · exact ⟨m0, by simp [hSMrec, hm], hid⟩
      | some vec => exact tailcase _ (some vec) (hSMid.trans hid)

/-- A concrete stored record used by several witnesses. -/
def memA : Memory := Memory.mk "a" "hello" "note" [] [] 1 "t0" "t0"

/-- A concrete consistent one-record store used by several witnesses. -/
def storeA : Store :=
  Store.mk [("a", memA)] [("a", [0])] [] [] ["a"] [[0]] 1

/-- C8 witness: an update carrying tag and importance kwargs (but no `id`
kwarg) leaves the file set and the stored id unchanged. -/
theorem update_never_moves_id_witness :
    (lookupA storeA.records "a" = some memA ∧ memA.id = "a" ∧
     (∀ v, KwArg.kid v ∉ [KwArg.ktags ["x"], KwArg.kimportance 2])) ∧
    ((updateMemory (fun _ => none) "t2" storeA "a" none none
        [KwArg.ktags ["x"], KwArg.kimportance 2]).state.records.map Prod.fst
      = storeA.records.map Prod.fst ∧
    (∃ m1 : Memory,
      lookupA (updateMemory (fun _ => none) "t2" storeA "a" none none
        [KwArg.ktags ["x"], KwArg.kimportance 2]).state.records "a"
        = some m1 ∧ m1.id = "a")) :=
  ⟨⟨by decide, by decide, by intro v hv; simp at hv⟩,
    update_never_moves_id (fun _ => none) "t2" storeA "a" none none
      [KwArg.ktags ["x"], KwArg.kimportance 2] memA (by decide) (by decide)
      (by intro v hv; simp at hv)⟩

/-- C8 counterexample: the claim quantifies over every kwargs set, but
passing `id="b"` as a kwarg makes `update_memory` persist the record under
the new id `b`: the set of record files changes from `{a}` to `{a, b}`, so
update does write a record file under a different id. -/
theorem update_id_kwarg_writes_new_id_cex :
    (updateMemory (fun _ => none) "t2" storeA "a" none none
        [KwArg.kid "b"]).state.records.map Prod.fst
      ≠ storeA.records.map Prod.fst := by decide

/-- C10: `update_memory` with `content=""` is Python-falsy, so it behaves
exactly as if content were not provided: the two calls are equal for every
store, provider, embedding argument and kwargs; in the plain call (no
kwargs, no embedding) the stored content is unchanged, no vector file or
index entry changes (no embedding is generated or persisted), the call
returns `True`, and `updated_at` is refreshed to the call time. -/
theorem update_empty_content_noop (embed : String → Option (List Rat))
    (now : String) (s : Store) (mid : String) (embedding : Option (List Rat))
    (kwargs : List KwArg) (m0 : Memory)
    (hm : lookupA s.records mid = some m0) (hid : m0.id = mid) :
    updateMemory embed now s mid (some "") embedding kwargs
      = updateMemory embed now s mid none embedding kwargs ∧
    (updateMemory embed now s mid (some "") none []
      = .ok (saveMemory s { m0 with updated_at := now }) true ∧
     lookupA (updateMemory embed now s mid (some "") none []).state.records mid
       = some { m0 with updated_at := now } ∧
     ({ m0 with updated_at := now }).content = m0.content ∧
     ({ m0 with updated_at := now }).updated_at = now ∧
     (updateMemory embed now s mid (some "") none []).state.vectors = s.vectors ∧
     (updateMemory embed now s mid (some "") none []).state.indexIds = s.indexIds ∧
     (updateMemory embed now s mid (some "") none []).state.indexVecs = s.indexVecs) := by
  have hplain : updateMemory embed now s mid (some "") none []
      = .ok (saveMemory s { m0 with updated_at := now }) true := by
    rw [updateMemory_found embed now s mid (some "") none [] m0 hm]
    simp only [ne_eq, not_true_eq_false, if_false, List.foldl_nil]
    exact updTail_none now mid s m0
  refine ⟨?_, hplain, ?_, rfl, rfl, ?_, ?_, ?_⟩
  · rw [updateMemory_found embed now s mid (some "") embedding kwargs m0 hm,
      updateMemory_found embed now s mid none embedding kwargs m0 hm]
    simp
  · rw [hplain, PyResult.state_ok, saveMemory_records]
    have : ({ m0 with updated_at := now } : Memory).id = mid := hid
    rw [this]
    exact lookupA_setA_self _ _ _
  · rw [hplain]
    rfl
  · rw [hplain]
    rfl
  · rw [hplain]
    rfl

/-- C10 witness: concrete empty-content update on the one-record store. -/
theorem update_empty_content_noop_witness :
    (lookupA storeA.records "a" = some memA ∧ memA.id = "a") ∧
    (updateMemory (fun _ => some [(0 : Rat)]) "t2" storeA "a" (some "") none []
      = updateMemory (fun _ => some [(0 : Rat)]) "t2" storeA "a" none none [] ∧
    (updateMemory (fun _ => some [(0 : Rat)]) "t2" storeA "a" (some "") none []
      = .ok (saveMemory storeA { memA with updated_at := "t2" }) true ∧
     lookupA (updateMemory (fun _ => some [(0 : Rat)]) "t2" storeA "a" (some "") none
        []).state.records "a" = some { memA with updated_at := "t2" } ∧
     ({ memA with updated_at := "t2" }).content = memA.content ∧
     ({ memA with updated_at := "t2" }).updated_at = "t2" ∧
     (updateMemory (fun _ => some [(0 : Rat)]) "t2" storeA "a" (some "") none
        []).state.vectors = storeA.vectors ∧
     (updateMemory (fun _ => some [(0 : Rat)]) "t2" storeA "a" (some "") none
        []).state.indexIds = storeA.indexIds ∧
     (updateMemory (fun _ => some [(0 : Rat)]) "t2" storeA "a" (some "") none
        []).state.indexVecs = storeA.indexVecs)) :=
  ⟨⟨by decide, by decide⟩,
    update_empty_content_noop (fun _ => some [(0 : Rat)]) "t2" storeA "a" none []
      memA (by decide) (by decide)⟩

@[simp]
theorem putState_memTags (s : Store) (mid : String) (v : List Rat) :
    (putState s mid v).memTags = s.memTags := rfl

@[simp]
theorem putState_indexIds (s : Store) (mid : String) (v : List Rat) :
    (putState s mid v).indexIds = s.indexIds := rfl

@[simp]
theorem delState_tagsFile (s : Store) (mid : String) :
    (delState s mid).tagsFile = s.tagsFile := rfl

@[simp]
theorem delState_memTags (s : Store) (mid : String) :
    (delState s mid).memTags = s.memTags := rfl

theorem addTail_state (r : PyResult Unit) (f : Store → Option Memory) :
    (match r with
     | PyResult.ok s3 _ => PyResult.ok s3 (f s3)
     | PyResult.exn s3 => PyResult.exn s3).state = r.state := by
  cases r <;> rfl

theorem addMemory_state_eq (embed : String → Option (List Rat))
    (newId now : String) (s : Store) (c ct : String)
    (md : List (String × String)) (tg : List String) (imp : Rat)
    (vec : List Rat) (hemb : embed c = some vec) :
    (addMemory embed newId now s c ct md tg imp).state =
      (saveEmbedding (saveMemory (if tg ≠ [] then addTags s tg else s)
        (formatMemoryData newId now c ct tg md imp)) newId vec).state := by
  rw [addMemory_embed_some embed newId now s c ct md tg imp vec hemb]
  exact addTail_state _ _

theorem saveEmbedding_state_tagsFile (s : Store) (mid : String) (v : List Rat) :
    (saveEmbedding s mid v).state.tagsFile = s.tagsFile := by
  rw [saveEmbedding_state, buildFaissIndex_tagsFile]

theorem saveEmbedding_state_memTags (s : Store) (mid : String) (v : List Rat) :
    (saveEmbedding s mid v).state.memTags = s.memTags := by
  rw [saveEmbedding_state, buildFaissIndex_memTags]

theorem addMemory_state_tags (embed : String → Option (List Rat))
    (newId now : String) (s : Store) (c ct : String)
    (md : List (String × String)) (tg : List String) (imp : Rat) :
    (addMemory embed newId now s c ct md tg imp).state.tagsFile
      = (if tg ≠ [] then addTags s tg else s).tagsFile ∧
    (addMemory embed newId now s c ct md tg imp).state.memTags
      = (if tg ≠ [] then addTags s tg else s).memTags := by
  cases hemb : embed c with
  | none =>
    rw [addMemory_embed_fail embed newId now s c ct md tg imp hemb]
    exact ⟨rfl, rfl⟩
  | some vec =>
    rw [addMemory_state_eq embed newId now s c ct md tg imp vec hemb]
    rw [saveEmbedding_state_tagsFile, saveEmbedding_state_memTags]
    exact ⟨rfl, rfl⟩

theorem updTail_state_tags (now mid : String) (s2 : Store) (md2 : Memory)
    (emb2 : Option (List Rat)) :
    (updTail now mid s2 md2 emb2).state.tagsFile = s2.tagsFile ∧
    (updTail now mid s2 md2 emb2).state.memTags = s2.memTags := by
  cases emb2 with
  | none => exact ⟨rfl, rfl⟩
  | some e =>
    rw [updTail_state_some, buildFaissIndex_tagsFile, buildFaissIndex_memTags]
    exact ⟨rfl, rfl⟩

theorem kwargsFold_tags (kwargs : List KwArg) (s : Store) (m : Memory)
    (hsync : s.tagsFile = s.memTags) :
    s.tagsFile ⊆ (kwargs.foldl applyKwarg (s, m)).1.tagsFile ∧
    (kwargs.foldl applyKwarg (s, m)).1.tagsFile
      = (kwargs.foldl applyKwarg (s, m)).1.memTags := by
  induction kwargs generalizing s m with
  | nil => exact ⟨List.Subset.refl _, hsync⟩
  | cons kw rest ih =>
    cases kw with
    | ktags v =>
      have h1 : s.tagsFile ⊆ (addTags s v).tagsFile :=
        addTags_tagsFile_subset s v hsync
      have h2 := ih (addTags s v) { m with tags := v } (addTags_tagsSync s v)
      exact ⟨List.Subset.trans h1 h2.1, h2.2⟩
    | kid v => exact ih s _ hsync
    | kcontent v => exact ih s _ hsync
    | kcontent_type v => exact ih s _ hsync
    | kmetadata v => exact ih s _ hsync
    | kimportance v => exact ih s _ hsync
    | kcreated_at v => exact ih s _ hsync
    | kupdated_at v => exact ih s _ hsync
    | kunknown k => exact ih s _ hsync

theorem updateMemory_state_tags (embed : String → Option (List Rat))
    (now : String) (s : Store) (mid : String) (content : Option String)
    (embedding : Option (List Rat)) (kwargs : List KwArg)
    (hsync : s.tagsFile = s.memTags) :
    s.tagsFile ⊆ (updateMemory embed now s mid content embedding kwargs).state.tagsFile ∧
    (updateMemory embed now s mid content embedding kwargs).state.tagsFile
      = (updateMemory embed now s mid content embedding kwargs).state.memTags := by
  cases hm : lookupA s.records mid with
  | none =>
    have : updateMemory embed now s mid content embedding kwargs = .ok s false := by
      unfold updateMemory loadMemory
      rw [hm]
    rw [this]
    exact ⟨List.Subset.refl _, hsync⟩
  | some m0 =>
    rw [updateMemory_found embed now s mid content embedding kwargs m0 hm]
    have hfold := kwargsFold_tags kwargs s m0 hsync
    have htail : ∀ (md2 : Memory) (emb2 : Option (List Rat)),
        s.tagsFile ⊆ (updTail now mid (kwargs.foldl applyKwarg (s, m0)).1 md2
          emb2).state.tagsFile ∧
        (updTail now mid (kwargs.foldl applyKwarg (s, m0)).1 md2 emb2).state.tagsFile
          = (updTail now mid (kwargs.foldl applyKwarg (s, m0)).1 md2
            emb2).state.memTags := by
      intro md2 emb2
      have ht := updTail_state_tags now mid (kwargs.foldl applyKwarg (s, m0)).1 md2 emb2
      rw [ht.1, ht.2]
      exact ⟨hfold.1, hfold.2⟩
    cases content with
    | none => exact htail _ embedding
    | some c =>
      dsimp only
      by_cases hc : c = ""
      · subst hc
        simp only [ne_eq, not_true_eq_false, if_false]
        exact htail _ embedding
      · rw [if_pos hc]
        cases hec : embed c with
        | none => exact ⟨hfold.1, hfold.2⟩
        | some vec => exact htail _ (some vec)

theorem deleteMemory_state_tags (s : Store) (mid : String) :
    (deleteMemory s mid).state.tagsFile = s.tagsFile ∧
    (deleteMemory s mid).state.memTags = s.memTags := by
  rw [deleteMemory_state]
  constructor
  · rw [buildFaissIndex_tagsFile]
  · rw [buildFaissIndex_memTags]

/-- C9: the persisted tag registry grows monotonically under each of
`add_memory`, `update_memory` and `delete_memory` (whether the call returns
or raises): the tag file before the call is a subset of the tag file after
it, the in-memory list stays in sync, and `delete_memory` in particular
leaves the registry exactly unchanged — tags are never removed, even when
the last record carrying one is deleted. -/
theorem tag_registry_monotone (embed : String → Option (List Rat)) (s : Store)
    (op : Op) (hsync : s.tagsFile = s.memTags) :
    s.tagsFile ⊆ (runOp embed s op).tagsFile ∧
    (runOp embed s op).tagsFile = (runOp embed s op).memTags ∧
    (∀ mid, (deleteMemory s mid).state.tagsFile = s.tagsFile) := by
  refine ⟨?_, ?_, fun mid => (deleteMemory_state_tags s mid).1⟩ <;>
  · cases op with
    | add newId now c ct md tg imp =>
      show _
      have h := addMemory_state_tags embed newId now s c ct md tg imp
      unfold runOp
      first
      | (rw [h.1]
         by_cases htg : tg = [] <;>
           simp only [htg, ne_eq, not_true_eq_false, if_false, if_true,
             not_false_eq_true]
         · exact List.Subset.refl _
         · exact addTags_tagsFile_subset s tg hsync)
      | (rw [h.1, h.2]
         by_cases htg : tg = [] <;>
           simp only [htg, ne_eq, not_true_eq_false, if_false, if_true,
             not_false_eq_true]
         · exact hsync
         · exact rfl)
    | update now mid c e kw =>
      have h := updateMemory_state_tags embed now s mid c e kw hsync
      unfold runOp
      first
      | exact h.1
      | exact h.2
    | del mid =>
      have h := deleteMemory_state_tags s mid
      unfold runOp
      first
      | (rw [h.1]; exact List.Subset.refl _)
      | (rw [h.1, h.2]; exact hsync)

/-- C9 witness: one concrete delete on a store whose registry holds one
tag; the registry survives unchanged even though the only record carrying
the tag is deleted. -/
theorem tag_registry_monotone_witness :
    ((Store.mk [("a", memA)] [("a", [0])] ["w"] ["w"] ["a"] [[0]] 1).tagsFile
      = (Store.mk [("a", memA)] [("a", [0])] ["w"] ["w"] ["a"] [[0]] 1).memTags) ∧
    ((Store.mk [("a", memA)] [("a", [0])] ["w"] ["w"] ["a"] [[0]] 1).tagsFile
      ⊆ (runOp (fun _ => none) (Store.mk [("a", memA)] [("a", [0])] ["w"] ["w"]
          ["a"] [[0]] 1) (Op.del "a")).tagsFile ∧
    (runOp (fun _ => none) (Store.mk [("a", memA)] [("a", [0])] ["w"] ["w"]
        ["a"] [[0]] 1) (Op.del "a")).tagsFile
      = (runOp (fun _ => none) (Store.mk [("a", memA)] [("a", [0])] ["w"] ["w"]
          ["a"] [[0]] 1) (Op.del "a")).memTags ∧
    (∀ mid, (deleteMemory (Store.mk [("a", memA)] [("a", [0])] ["w"] ["w"]
        ["a"] [[0]] 1) mid).state.tagsFile
      = (Store.mk [("a", memA)] [("a", [0])] ["w"] ["w"] ["a"] [[0]] 1).tagsFile)) :=
  ⟨rfl, tag_registry_monotone (fun _ => none)
    (Store.mk [("a", memA)] [("a", [0])] ["w"] ["w"] ["a"] [[0]] 1)
    (Op.del "a") rfl⟩

/-- The counts the spec's consistency property compares: ids in the Faiss
index, persisted vector files, persisted record files. -/
def consistentCounts (s : Store) : Prop :=
  s.indexIds.length = s.vectors.length ∧ s.vectors.length = s.records.length

/-- The inductive store invariant behind C2: record and vector directories hold
exactly the same ids in the same order, records are stored under their own
id, vectors have the configured dimension, and the index covers one entry
per record. -/
def StoreInv (s : Store) : Prop :=
  s.records.map Prod.fst = s.vectors.map Prod.fst ∧
  (∀ p ∈ s.records, p.2.id = p.1) ∧
  (∀ p ∈ s.vectors, p.2.length = s.dimension) ∧
  s.indexIds.length = s.records.length

/-- The provider contract of the spec: an embedding, when produced, has the
configured dimension. -/
def embedOK (embed : String → Option (List Rat)) (d : Nat) : Prop :=
  ∀ t v, embed t = some v → v.length = d

/-- Calls within the scope of the consistency claim: `update_memory` must
not smuggle an `id` kwarg (that is C8's counterexample) and an explicitly
passed embedding must have the configured dimension. -/
def goodOp (d : Nat) : Op → Prop
  | .update _ _ _ emb kwargs =>
      (∀ v, KwArg.kid v ∉ kwargs) ∧ (∀ e, emb = some e → e.length = d)
  | _ => True

theorem filterMap_lookup_fst (l : List (String × Memory))
    (vs : List (String × List Rat))
    (hap : ∀ p ∈ l, (lookupA vs p.1).isSome) :
    (l.filterMap (fun p => (lookupA vs p.1).map (fun v => (p.1, v)))).map Prod.fst
      = l.map Prod.fst := by
  induction l with
  | nil => rfl
  | cons p rest ih =>
    obtain ⟨v, hv⟩ : ∃ v, lookupA vs p.1 = some v :=
      Option.isSome_iff_exists.mp (hap p (List.mem_cons_self _ _))
    have hstep : (fun p => (lookupA vs p.1).map (fun v => (p.1, v))) p
        = some (p.1, v) := by
      show (lookupA vs p.1).map (fun v => (p.1, v)) = some (p.1, v)
      rw [hv]
      rfl
    rw [@List.filterMap_cons_some _ _
        (fun q => (lookupA vs q.1).map (fun v => (q.1, v))) p rest (p.1, v) hstep,
      List.map_cons, List.map_cons,
      ih (fun q hq => hap q (List.mem_cons_of_mem _ hq))]

theorem indexPairs_map_fst (s : Store)
    (hkeys : s.records.map Prod.fst = s.vectors.map Prod.fst) :
    (indexPairs s).map Prod.fst = s.records.map Prod.fst := by
  unfold indexPairs
  apply filterMap_lookup_fst
  intro p hp
  rw [lookupA_isSome_iff, ← hkeys]
  exact List.mem_map.mpr ⟨p, hp, rfl⟩

theorem storeInv_of_rebuild (T : Store)
    (hkeys : T.records.map Prod.fst = T.vectors.map Prod.fst)
    (hwk : ∀ p ∈ T.records, p.2.id = p.1)
    (hdim : ∀ p ∈ T.vectors, p.2.length = T.dimension) :
    StoreInv (buildFaissIndex T).1 ∧ (buildFaissIndex T).1.dimension = T.dimension := by
  have hall : ∀ p ∈ indexPairs T, p.2.length = T.dimension :=
    fun p hp => hdim p (indexPairs_mem_vectors hp)
  rw [buildFaissIndex_success T hall]
  refine ⟨⟨hkeys, hwk, hdim, ?_⟩, rfl⟩
  show ((indexPairs T).map Prod.fst).length = T.records.length
  rw [indexPairs_map_fst T hkeys, List.length_map]

theorem storeInv_congr {s t : Store} (hinv : StoreInv s) (hr : t.records = s.records)
    (hv : t.vectors = s.vectors) (hi : t.indexIds = s.indexIds)
    (hd : t.dimension = s.dimension) : StoreInv t := by
  obtain ⟨h1, h2, h3, h4⟩ := hinv
  refine ⟨by rw [hr, hv]; exact h1, by rw [hr]; exact h2, ?_, by rw [hi, hr]; exact h4⟩
  rw [hv, hd]
  exact h3

theorem setA_pair_keys {rs : List (String × Memory)} {vs : List (String × List Rat)}
    (hkeys : rs.map Prod.fst = vs.map Prod.fst) (k : String) (m : Memory)
    (v : List Rat) :
    (setA rs k m).map Prod.fst = (setA vs k v).map Prod.fst := by
  by_cases hk : (lookupA rs k).isSome
  · have hk2 : (lookupA vs k).isSome = true := by
      rw [lookupA_isSome_iff, ← hkeys]
      rw [lookupA_isSome_iff] at hk
      exact hk
    rw [setA_map_fst_of_isSome hk, setA_map_fst_of_isSome hk2, hkeys]
  · have hk1 : lookupA rs k = none := Option.not_isSome_iff_eq_none.mp hk
    have hk2 : lookupA vs k = none := by
      rw [← Option.not_isSome_iff_eq_none, lookupA_isSome_iff, ← hkeys]
      rw [← lookupA_isSome_iff, hk1]
      simp
    rw [setA_map_fst_of_none hk1, setA_map_fst_of_none hk2, hkeys]

theorem setA_wellKeyed {rs : List (String × Memory)}
    (hwk : ∀ p ∈ rs, p.2.id = p.1) {k : String} {m : Memory} (hm : m.id = k) :
    ∀ p ∈ setA rs k m, p.2.id = p.1 := by
  intro p hp
  rcases mem_setA hp with h | h
  · rw [h]
    exact hm
  · exact hwk p h

theorem setA_dims {vs : List (String × List Rat)} {d : Nat}
    (hdim : ∀ p ∈ vs, p.2.length = d) {k : String} {v : List Rat}
    (hv : v.length = d) : ∀ p ∈ setA vs k v, p.2.length = d := by
  intro p hp
  rcases mem_setA hp with h | h
  · rw [h]
    exact hv
  · exact hdim p h

theorem length_eq_of_map_fst_eq {l1 : List (String × α)} {l2 : List (String × β)}
    (h : l1.map Prod.fst = l2.map Prod.fst) : l1.length = l2.length := by
  have h2 := congrArg List.length h
  simpa using h2

theorem storeInv_delete (s : Store) (mid : String) (hinv : StoreInv s) :
    StoreInv (deleteMemory s mid).state ∧
    (deleteMemory s mid).state.dimension = s.dimension := by
  obtain ⟨hkeys, hwk, hdim, _⟩ := hinv
  rw [deleteMemory_state]
  have hkeys2 : (delState s mid).records.map Prod.fst
      = (delState s mid).vectors.map Prod.fst := by
    show (removeA s.records mid).map Prod.fst = (removeA s.vectors mid).map Prod.fst
    rw [removeA_map_fst, removeA_map_fst, hkeys]
  have hwk2 : ∀ p ∈ (delState s mid).records, p.2.id = p.1 :=
    fun p hp => hwk p (mem_removeA hp)
  have hdim2 : ∀ p ∈ (delState s mid).vectors, p.2.length = (delState s mid).dimension :=
    fun p hp => hdim p (mem_removeA hp)
  exact storeInv_of_rebuild _ hkeys2 hwk2 hdim2

theorem storeInv_add (embed : String → Option (List Rat)) (newId now : String)
    (s : Store) (c ct : String) (md : List (String × String)) (tg : List String)
    (imp : Rat) (hinv : StoreInv s) (hembed : embedOK embed s.dimension) :
    StoreInv (addMemory embed newId now s c ct md tg imp).state ∧
    (addMemory embed newId now s c ct md tg imp).state.dimension = s.dimension := by
  obtain ⟨hkeys, hwk, hdim, hlen⟩ := hinv
  have hS1r : (if tg ≠ [] then addTags s tg else s).records = s.records := by
    by_cases htg : tg = [] <;> simp [htg]
  have hS1v : (if tg ≠ [] then addTags s tg else s).vectors = s.vectors := by
    by_cases htg : tg = [] <;> simp [htg]
  have hS1i : (if tg ≠ [] then addTags s tg else s).indexIds = s.indexIds := by
    by_cases htg : tg = [] <;> simp [htg]
  have hS1d : (if tg ≠ [] then addTags s tg else s).dimension = s.dimension := by
    by_cases htg : tg = [] <;> simp [htg]
  cases hemb : embed c with
  | none =>
    rw [addMemory_embed_fail embed newId now s c ct md tg imp hemb]
    exact ⟨storeInv_congr ⟨hkeys, hwk, hdim, hlen⟩ hS1r hS1v hS1i hS1d, hS1d⟩
  | some vec =>
    have hv : vec.length = s.dimension := hembed c vec hemb
    rw [addMemory_state_eq embed newId now s c ct md tg imp vec hemb,
      saveEmbedding_state]
    have hc1 : (putState (saveMemory (if tg ≠ [] then addTags s tg else s)
          (formatMemoryData newId now c ct tg md imp)) newId vec).records.map Prod.fst
        = (putState (saveMemory (if tg ≠ [] then addTags s tg else s)
          (formatMemoryData newId now c ct tg md imp)) newId vec).vectors.map Prod.fst := by
      rw [putState_records, saveMemory_records, putState_vectors, saveMemory_vectors,
        formatMemoryData_id, hS1r, hS1v]
      exact setA_pair_keys hkeys newId _ vec
    have hc2 : ∀ p ∈ (putState (saveMemory (if tg ≠ [] then addTags s tg else s)
          (formatMemoryData newId now c ct tg md imp)) newId vec).records,
        p.2.id = p.1 := by
      rw [putState_records, saveMemory_records, formatMemoryData_id, hS1r]
      exact setA_wellKeyed hwk rfl
    have hc3 : ∀ p ∈ (putState (saveMemory (if tg ≠ [] then addTags s tg else s)
          (formatMemoryData newId now c ct tg md imp)) newId vec).vectors,
        p.2.length = (putState (saveMemory (if tg ≠ [] then addTags s tg else s)
          (formatMemoryData newId now c ct tg md imp)) newId vec).dimension := by
      rw [putState_vectors, saveMemory_vectors, hS1v, putState_dimension,
        saveMemory_dimension, hS1d]
      exact setA_dims hdim hv
    have h := storeInv_of_rebuild _ hc1 hc2 hc3
    refine ⟨h.1, h.2.trans ?_⟩
    rw [putState_dimension, saveMemory_dimension, hS1d]

theorem storeInv_updTail (now mid : String) (s : Store) (sm1 : Store)
    (md2 : Memory) (emb2 : Option (List Rat))
    (hkeys : s.records.map Prod.fst = s.vectors.map Prod.fst)
    (hwk : ∀ p ∈ s.records, p.2.id = p.1)
    (hdim : ∀ p ∈ s.vectors, p.2.length = s.dimension)
    (hlen : s.indexIds.length = s.records.length)
    (hr : sm1.records = s.records) (hv : sm1.vectors = s.vectors)
    (hi : sm1.indexIds = s.indexIds) (hd : sm1.dimension = s.dimension)
    (hmid : md2.id = mid) (hsome : (lookupA s.records mid).isSome = true)
    (hemb2 : ∀ x, emb2 = some x → x.length = s.dimension) :
    StoreInv (updTail now mid sm1 md2 emb2).state ∧
    (updTail now mid sm1 md2 emb2).state.dimension = s.dimension := by
  have hrr : (saveMemory sm1 { md2 with updated_at := now }).records
      = setA s.records mid { md2 with updated_at := now } := by
    rw [saveMemory_records, hr]
    show setA s.records md2.id _ = _
    rw [hmid]
  have hmap : (setA s.records mid { md2 with updated_at := now }).map Prod.fst
      = s.records.map Prod.fst := setA_map_fst_of_isSome hsome _
  have hwk2 : ∀ p ∈ setA s.records mid { md2 with updated_at := now },
      p.2.id = p.1 := setA_wellKeyed hwk hmid
  cases emb2 with
  | none =>
    rw [updTail_none, PyResult.state_ok]
    refine ⟨⟨?_, ?_, ?_, ?_⟩, ?_⟩
    · rw [hrr, hmap, saveMemory_vectors, hv]
      exact hkeys
    · rw [hrr]
      exact hwk2
    · show ∀ p ∈ (saveMemory sm1 _).vectors, _
      rw [saveMemory_vectors, hv, saveMemory_dimension, hd]
      exact hdim
    · rw [hrr, saveMemory_indexIds, hi, hlen]
      exact (length_eq_of_map_fst_eq hmap).symm
    · rw [saveMemory_dimension, hd]
  | some x =>
    have hx : x.length = s.dimension := hemb2 x rfl
    have hvsome : (lookupA s.vectors mid).isSome = true := by
      rw [lookupA_isSome_iff, ← hkeys]
      rw [lookupA_isSome_iff] at hsome
      exact hsome
    rw [updTail_state_some]
    have hc1 : (putState (saveMemory sm1 { md2 with updated_at := now }) mid
          x).records.map Prod.fst
        = (putState (saveMemory sm1 { md2 with updated_at := now }) mid
          x).vectors.map Prod.fst := by
      rw [putState_records, hrr, hmap, putState_vectors, saveMemory_vectors, hv,
        setA_map_fst_of_isSome hvsome]
      exact hkeys
    have hc2 : ∀ p ∈ (putState (saveMemory sm1 { md2 with updated_at := now }) mid
          x).records, p.2.id = p.1 := by
      rw [putState_records, hrr]
      exact hwk2
    have hc3 : ∀ p ∈ (putState (saveMemory sm1 { md2 with updated_at := now }) mid
          x).vectors, p.2.length
        = (putState (saveMemory sm1 { md2 with updated_at := now }) mid
          x).dimension := by
      rw [putState_vectors, saveMemory_vectors, hv, putState_dimension,
        saveMemory_dimension, hd]
      exact setA_dims hdim hx
    have h := storeInv_of_rebuild _ hc1 hc2 hc3
    refine ⟨h.1, h.2.trans ?_⟩
    rw [putState_dimension, saveMemory_dimension, hd]

theorem storeInv_update (embed : String → Option (List Rat)) (now : String)
    (s : Store) (mid : String) (c : Option String) (e : Option (List Rat))
    (kw : List KwArg) (hinv : StoreInv s) (hembed : embedOK embed s.dimension)
    (hnok : ∀ v, KwArg.kid v ∉ kw)
    (hemb : ∀ x, e = some x → x.length = s.dimension) :
    StoreInv (updateMemory embed now s mid c e kw).state ∧
    (updateMemory embed now s mid c e kw).state.dimension = s.dimension := by
  obtain ⟨hkeys, hwk, hdim, hlen⟩ := hinv
  cases hm : lookupA s.records mid with
  | none =>
    have heq : updateMemory embed now s mid c e kw = .ok s false := by
      unfold updateMemory loadMemory
      rw [hm]
    rw [heq]
    exact ⟨⟨hkeys, hwk, hdim, hlen⟩, rfl⟩
  | some m0 =>
    have hmid : m0.id = mid := hwk (mid, m0) (lookupA_mem hm)
    have hsome : (lookupA s.records mid).isSome = true := by rw [hm]; rfl
    have hSMr := kwargsFold_records kw s m0
    have hSMv := kwargsFold_vectors kw s m0
    have hSMi := kwargsFold_indexIds kw s m0
    have hSMd := kwargsFold_dimension kw s m0
    have hSMid : (kw.foldl applyKwarg (s, m0)).2.id = m0.id := kwargsFold_id kw s m0 hnok
    rw [updateMemory_found embed now s mid c e kw m0 hm]
    cases c with
    | none =>
      exact storeInv_updTail now mid s _ _ e hkeys hwk hdim hlen hSMr hSMv hSMi hSMd
        (hSMid.trans hmid) hsome hemb
    | some cc =>
      dsimp only
      by_cases hc : cc = ""
      · subst hc
        simp only [ne_eq, not_true_eq_false, if_false]
        exact storeInv_updTail now mid s _ _ e hkeys hwk hdim hlen hSMr hSMv hSMi hSMd
          (hSMid.trans hmid) hsome hemb
      · rw [if_pos hc]
        cases hec : embed cc with
        | none =>
          refine ⟨⟨?_, ?_, ?_, ?_⟩, ?_⟩ <;>
            simp only [PyResult.state_exn, hSMr, hSMv, hSMi, hSMd]
          · exact hkeys
          · exact hwk
          · exact hdim
          · exact hlen
        | some vec =>
          refine storeInv_updTail now mid s _ _ (some vec) hkeys hwk hdim hlen hSMr
            hSMv hSMi hSMd (hSMid.trans hmid) hsome ?_
          intro x hx
          cases hx
          exact hembed cc vec hec

theorem storeInv_runOp (embed : String → Option (List Rat)) (s : Store) (op : Op)
    (hinv : StoreInv s) (hembed : embedOK embed s.dimension)
    (hop : goodOp s.dimension op) :
    StoreInv (runOp embed s op) ∧ (runOp embed s op).dimension = s.dimension := by
  cases op with
  | add newId now c ct md tg imp =>
    exact storeInv_add embed newId now s c ct md tg imp hinv hembed
  | update now mid c e kw =>
    exact storeInv_update embed now s mid c e kw hinv hembed hop.1 hop.2
  | del mid => exact storeInv_delete s mid hinv

theorem storeInv_runOps (embed : String → Option (List Rat)) (s : Store)
    (ops : List Op) (hinv : StoreInv s) (hembed : embedOK embed s.dimension)
    (hops : ∀ op ∈ ops, goodOp s.dimension op) :
    StoreInv (runOps embed s ops) ∧ (runOps embed s ops).dimension = s.dimension := by
  induction ops generalizing s with
  | nil => exact ⟨hinv, rfl⟩
  | cons op rest ih =>
    have h1 := storeInv_runOp embed s op hinv hembed (hops op (List.mem_cons_self _ _))
    have hembed2 : embedOK embed (runOp embed s op).dimension := by
      rw [h1.2]
      exact hembed
    have hops2 : ∀ o ∈ rest, goodOp (runOp embed s op).dimension o := by
      rw [h1.2]
      exact fun o ho => hops o (List.mem_cons_of_mem _ ho)
    have h2 := ih (runOp embed s op) h1.1 hembed2 hops2
    exact ⟨h2.1, h2.2.trans h1.2⟩

/-- C2 (amended): after any sequence of add/update/delete calls on a store
satisfying the basic storage invariant (in particular any store reachable
from a fresh one), with a provider honouring the configured dimension and
with no `update_memory` call smuggling an `id` keyword argument, the number
of ids in the similarity index equals the number of persisted vector files
and both equal the number of persisted record files. (An `id` kwarg breaks
this — see the counterexample — which is the only exclusion the code
forces.) -/
theorem index_storage_counts_consistent (embed : String → Option (List Rat))
    (s : Store) (ops : List Op) (hinv : StoreInv s)
    (hembed : embedOK embed s.dimension)
    (hops : ∀ op ∈ ops, goodOp s.dimension op) :
    consistentCounts (runOps embed s ops) := by
  obtain ⟨⟨hkeys, _, _, hlen⟩, _⟩ := storeInv_runOps embed s ops hinv hembed hops
  have hrv : (runOps embed s ops).records.length = (runOps embed s ops).vectors.length :=
    length_eq_of_map_fst_eq hkeys
  exact ⟨hlen.trans hrv, hrv.symm⟩

/-- C2 witness: a concrete add–update–delete run from an empty store keeps
the three counts equal. -/
theorem index_storage_counts_consistent_witness :
    (StoreInv (emptyStore 1) ∧ embedOK (fun _ => some [(0 : Rat)]) 1 ∧
     (∀ op ∈ [Op.add "a" "t1" "c" "ct" [] ["w"] 1,
              Op.update "t2" "a" (some "c2") none [KwArg.kimportance 2],
              Op.del "a"], goodOp (emptyStore 1).dimension op)) ∧
    consistentCounts (runOps (fun _ => some [(0 : Rat)]) (emptyStore 1)
      [Op.add "a" "t1" "c" "ct" [] ["w"] 1,
       Op.update "t2" "a" (some "c2") none [KwArg.kimportance 2],
       Op.del "a"]) :=
  ⟨⟨⟨rfl, by simp [emptyStore], by simp [emptyStore], rfl⟩,
    fun t v h => by cases h; rfl,
    by
      intro op hop
      simp only [List.mem_cons, List.not_mem_nil, or_false] at hop
      rcases hop with h | h | h <;> subst h
      · exact trivial
      · exact ⟨by intro v hv; simp at hv, by intro x hx; cases hx⟩
      · exact trivial⟩,
    index_storage_counts_consistent (fun _ => some [(0 : Rat)]) (emptyStore 1) _
      ⟨rfl, by simp [emptyStore], by simp [emptyStore], rfl⟩
      (fun t v h => by cases h; rfl)
      (by
        intro op hop
        simp only [List.mem_cons, List.not_mem_nil, or_false] at hop
        rcases hop with h | h | h <;> subst h
        · exact trivial
        · exact ⟨by intro v hv; simp at hv, by intro x hx; cases hx⟩
        · exact trivial)⟩

/-- C2 counterexample: the claim as stated covers every update_memory call;
but after add("a") followed by update_memory("a", id="b") — a perfectly
expressible call, since update merges arbitrary kwargs — there are 2 record
files, 1 vector file and 1 indexed id, so the three counts are not equal. -/
theorem index_storage_counts_cex :
    ¬ consistentCounts (runOps (fun _ => some [(0 : Rat)]) (emptyStore 1)
      [Op.add "a" "t1" "c" "ct" [] [] 1,
       Op.update "t2" "a" none none [KwArg.kid "b"]]) := by
  unfold consistentCounts
  decide

theorem faissSearch_length (vecs : List (List Rat)) (q : List Rat) (k : Nat) :
    (faissSearch vecs q k).length = min k vecs.length := by
  unfold faissSearch
  rw [List.length_take, List.length_insertionSort, List.length_map,
    List.length_range]

theorem faissSearch_mem {vecs : List (List Rat)} {q : List Rat} {k : Nat}
    {h : Nat × Rat} (hm : h ∈ faissSearch vecs q k) :
    ∃ i, i < vecs.length ∧ h = (i, l2sq q (vecs.getD i [])) := by
  unfold faissSearch at hm
  have h1 := List.mem_of_mem_take hm
  rw [List.mem_insertionSort] at h1
  rcases List.mem_map.mp h1 with ⟨i, hi, hie⟩
  exact ⟨i, List.mem_range.mp hi, hie.symm⟩

theorem searchMemories_some {embed : String → Option (List Rat)} {s : Store}
    {q : String} {ct : Option String} {tg : Option (List String)} {k : Nat}
    {res : List (Memory × Rat)} (h : searchMemories embed s q ct tg k = some res) :
    ∃ qv, embed q = some qv ∧ findSimilarMemories s qv ct tg k = some res := by
  unfold searchMemories at h
  cases he : embed q with
  | none =>
    rw [he] at h
    simp at h
  | some qv =>
    rw [he] at h
    exact ⟨qv, rfl, h⟩

theorem findSimilar_some_cases {s : Store} {q : List Rat} {ct : Option String}
    {tg : Option (List String)} {k : Nat} {res : List (Memory × Rat)}
    (h : findSimilarMemories s q ct tg k = some res) :
    res = [] ∨ ∃ results, fsLoop s ct tg (faissSearch s.indexVecs q k) = some results ∧
      res = (List.insertionSort scoreGe results).take k := by
  unfold findSimilarMemories at h
  by_cases hz : s.indexVecs.length = 0
  · rw [if_pos hz] at h
    left
    exact (Option.some_injective _ h).symm
  · rw [if_neg hz] at h
    cases hl : fsLoop s ct tg (faissSearch s.indexVecs q k) with
    | none =>
      rw [hl] at h
      simp at h
    | some results =>
      rw [hl] at h
      exact Or.inr ⟨results, rfl, (Option.some_injective _ h).symm⟩

theorem findSimilar_bound_sorted {s : Store} {q : List Rat} {ct : Option String}
    {tg : Option (List String)} {k : Nat} {res : List (Memory × Rat)}
    (h : findSimilarMemories s q ct tg k = some res) :
    res.length ≤ k ∧ List.Sorted scoreGe res := by
  rcases findSimilar_some_cases h with rfl | ⟨results, _, rfl⟩
  · exact ⟨Nat.zero_le k, List.sorted_nil⟩
  · constructor
    · rw [List.length_take]
      exact min_le_left _ _
    · exact List.Pairwise.sublist (List.take_sublist _ _)
        (List.sorted_insertionSort scoreGe results)

theorem fsLoop_no_filter_some (s : Store) (hits : List (Nat × Rat))
    (hok : ∀ h ∈ hits, h.1 < s.indexIds.length ∧
      (lookupA s.records (s.indexIds.getD h.1 "")).isSome = true) :
    ∃ out, fsLoop s none none hits = some out ∧ out.length = hits.length := by
  induction hits with
  | nil => exact ⟨[], rfl, rfl⟩
  | cons h rest ih =>
    obtain ⟨hlt, hsome⟩ := hok h (List.mem_cons_self _ _)
    obtain ⟨md, hmd⟩ := Option.isSome_iff_exists.mp hsome
    obtain ⟨out, hout, hlen⟩ := ih (fun h2 h2m => hok h2 (List.mem_cons_of_mem _ h2m))
    refine ⟨(md, simScore h.2) :: out, ?_, by simp [hlen]⟩
    simp only [fsLoop]
    rw [if_pos hlt]
    unfold loadMemory
    rw [hmd]
    rw [hout]
    simp [ctFilterOut, tagFilterOut]

theorem fsLoop_mem {s : Store} {ct : Option String} {tg : Option (List String)}
    {hits : List (Nat × Rat)} {out : List (Memory × Rat)}
    (hout : fsLoop s ct tg hits = some out) {pr : Memory × Rat} (hpr : pr ∈ out) :
    ∃ h ∈ hits, h.1 < s.indexIds.length ∧
      lookupA s.records (s.indexIds.getD h.1 "") = some pr.1 ∧
      pr.2 = simScore h.2 := by
  induction hits generalizing out with
  | nil =>
    have : out = [] := (Option.some_injective _ hout).symm
    subst this
    simp at hpr
  | cons h rest ih =>
    simp only [fsLoop] at hout
    by_cases hlt : h.1 < s.indexIds.length
    · rw [if_pos hlt] at hout
      cases hmd : loadMemory s (s.indexIds.getD h.1 "") with
      | none =>
        rw [hmd] at hout
        simp at hout
      | some md =>
        rw [hmd] at hout
        dsimp only at hout
        by_cases hf : (ctFilterOut ct md || tagFilterOut tg md) = true
        · rw [if_pos hf] at hout
          obtain ⟨h2, h2mem, hrest⟩ := ih hout hpr
          exact ⟨h2, List.mem_cons_of_mem _ h2mem, hrest⟩
        · rw [if_neg hf] at hout
          cases hrec : fsLoop s ct tg rest with
          | none =>
            rw [hrec] at hout
            simp at hout
          | some out2 =>
            rw [hrec] at hout
            have hcons : (md, simScore h.2) :: out2 = out :=
              Option.some_injective _ hout
            subst hcons
            rcases List.mem_cons.mp hpr with hh | hpr2
            · subst hh
              exact ⟨h, List.mem_cons_self _ _, hlt,
                by unfold loadMemory at hmd; exact hmd, rfl⟩
            · obtain ⟨h2, h2mem, hrest⟩ := ih hrec hpr2
              exact ⟨h2, List.mem_cons_of_mem _ h2mem, hrest⟩
    · rw [if_neg hlt] at hout
      obtain ⟨h2, h2mem, hrest⟩ := ih hout hpr
      exact ⟨h2, List.mem_cons_of_mem _ h2mem, hrest⟩

theorem findSimilar_exact (s : Store) (qv : List Rat) (k : Nat)
    (hlen : s.indexIds.length = s.indexVecs.length)
    (hres : ∀ i, i < s.indexIds.length →
      (lookupA s.records (s.indexIds.getD i "")).isSome = true)
    (hpos : 0 < s.indexVecs.length) (hk : k ≤ s.indexVecs.length) :
    ∃ res, findSimilarMemories s qv none none k = some res ∧
      res.length = k ∧ List.Sorted scoreGe res := by
  have hok : ∀ h ∈ faissSearch s.indexVecs qv k, h.1 < s.indexIds.length ∧
      (lookupA s.records (s.indexIds.getD h.1 "")).isSome = true := by
    intro h hm
    obtain ⟨i, hi, hie⟩ := faissSearch_mem hm
    have hi2 : h.1 < s.indexIds.length := by
      rw [hlen, hie]
      exact hi
    exact ⟨hi2, hres h.1 hi2⟩
  obtain ⟨out, hout, holen⟩ := fsLoop_no_filter_some s _ hok
  have hlenout : out.length = k := by
    rw [holen, faissSearch_length]
    exact min_eq_left hk
  refine ⟨(List.insertionSort scoreGe out).take k, ?_, ?_, ?_⟩
  · unfold findSimilarMemories
    rw [if_neg (Nat.pos_iff_ne_zero.mp hpos), hout]
  · rw [List.length_take, List.length_insertionSort, hlenout]
    exact Nat.min_self k
  · exact List.Pairwise.sublist (List.take_sublist _ _)
      (List.sorted_insertionSort scoreGe out)

/-- C6: `search_memories` with `top_k = k` always returns at most `k`
results, sorted by non-increasing similarity score; and when no
content-type/tags filter is given, every indexed id resolves to a record,
and the index holds at least `k` entries (for example 10 entries with
`k = 3`), it returns exactly `k` results, still sorted non-increasingly. -/
theorem search_topk_bound_and_exact :
    (∀ (embed : String → Option (List Rat)) (s : Store) (q : String)
       (ct : Option String) (tg : Option (List String)) (k : Nat)
       (res : List (Memory × Rat)),
        searchMemories embed s q ct tg k = some res →
        res.length ≤ k ∧ List.Sorted scoreGe res) ∧
    (∀ (embed : String → Option (List Rat)) (s : Store) (q : String)
       (k : Nat) (qv : List Rat),
        embed q = some qv →
        s.indexIds.length = s.indexVecs.length →
        (∀ i, i < s.indexIds.length →
          (lookupA s.records (s.indexIds.getD i "")).isSome = true) →
        0 < s.indexVecs.length → k ≤ s.indexVecs.length →
        ∃ res, searchMemories embed s q none none k = some res ∧
          res.length = k ∧ List.Sorted scoreGe res) := by
  constructor
  · intro embed s q ct tg k res h
    obtain ⟨qv, _, hfind⟩ := searchMemories_some h
    exact findSimilar_bound_sorted hfind
  · intro embed s q k qv hq hlen hres hpos hk
    obtain ⟨res, hfind, hl, hs⟩ := findSimilar_exact s qv k hlen hres hpos hk
    refine ⟨res, ?_, hl, hs⟩
    unfold searchMemories
    rw [hq]
    exact hfind

/-- A record fixture keyed by its id string. -/
def mkMem (i : String) : Memory := Memory.mk i "c" "note" [] [] 1 "t" "t"

/-- A consistent ten-record store (dimension 1) for the search witnesses. -/
def store10 : Store :=
  Store.mk
    [("m0", mkMem "m0"), ("m1", mkMem "m1"), ("m2", mkMem "m2"),
     ("m3", mkMem "m3"), ("m4", mkMem "m4"), ("m5", mkMem "m5"),
     ("m6", mkMem "m6"), ("m7", mkMem "m7"), ("m8", mkMem "m8"),
     ("m9", mkMem "m9")]
    [("m0", [0]), ("m1", [1]), ("m2", [2]), ("m3", [3]), ("m4", [4]),
     ("m5", [5]), ("m6", [6]), ("m7", [7]), ("m8", [8]), ("m9", [9])]
    [] []
    ["m0", "m1", "m2", "m3", "m4", "m5", "m6", "m7", "m8", "m9"]
    [[0], [1], [2], [3], [4], [5], [6], [7], [8], [9]]
    1

/-- C6 witness: `top_k = 3` against an unfiltered ten-record index returns
exactly three results, sorted by non-increasing score. -/
theorem search_topk_bound_and_exact_witness :
    ((fun (_ : String) => some [(0 : Rat)]) "query" = some [(0 : Rat)] ∧
     store10.indexIds.length = store10.indexVecs.length ∧
     (∀ i, i < store10.indexIds.length →
       (lookupA store10.records (store10.indexIds.getD i "")).isSome = true) ∧
     0 < store10.indexVecs.length ∧ 3 ≤ store10.indexVecs.length) ∧
    (∃ res, searchMemories (fun _ => some [(0 : Rat)]) store10 "query" none none 3
        = some res ∧ res.length = 3 ∧ List.Sorted scoreGe res) :=
  ⟨⟨rfl, rfl, by decide, by decide, by decide⟩,
    search_topk_bound_and_exact.2 (fun _ => some [(0 : Rat)]) store10 "query" 3
      [(0 : Rat)] rfl rfl (by decide) (by decide) (by decide)⟩

/-- C7: every result produced by `find_similar_memories` carries the score
computed from its indexed vector's L2-squared distance `d` to the query by
the transform on line 312: `1 - d/2` when `d ≤ 2`, else `0`. -/
theorem similarity_score_transform (s : Store) (q : List Rat)
    (ct : Option String) (tg : Option (List String)) (k : Nat)
    (res : List (Memory × Rat))
    (hres : findSimilarMemories s q ct tg k = some res) :
    ∀ pr ∈ res, ∃ i, i < s.indexVecs.length ∧
      lookupA s.records (s.indexIds.getD i "") = some pr.1 ∧
      (l2sq q (s.indexVecs.getD i []) ≤ 2 →
        pr.2 = 1 - l2sq q (s.indexVecs.getD i []) / 2) ∧
      (¬ l2sq q (s.indexVecs.getD i []) ≤ 2 → pr.2 = 0) := by
  intro pr hpr
  rcases findSimilar_some_cases hres with hemp | ⟨results, hl, htake⟩
  · subst hemp
    simp at hpr
  · subst htake
    have h1 := List.mem_of_mem_take hpr
    rw [List.mem_insertionSort] at h1
    obtain ⟨h, hmem, hlt, hlook, hscore⟩ := fsLoop_mem hl h1
    obtain ⟨i, hi, hie⟩ := faissSearch_mem hmem
    subst hie
    refine ⟨i, hi, hlook, ?_, ?_⟩
    · intro hle
      rw [hscore]
      unfold simScore
      rw [if_pos hle]
    · intro hgt
      rw [hscore]
      unfold simScore
      rw [if_neg hgt]

/-- C7 witness: a one-record store at distance 0 from the query; the result
carries the transformed score of its own L2-squared distance. -/
theorem similarity_score_transform_witness :
    (findSimilarMemories storeA [0] none none 1
      = some [(memA, simScore (l2sq [0] [0]))] ∧
     (memA, simScore (l2sq [0] [0])) ∈ [(memA, simScore (l2sq [0] [0]))]) ∧
    (∃ i, i < storeA.indexVecs.length ∧
      lookupA storeA.records (storeA.indexIds.getD i "")
        = some (memA, simScore (l2sq [0] [0])).1 ∧
      (l2sq [0] (storeA.indexVecs.getD i []) ≤ 2 →
        (memA, simScore (l2sq [0] [0])).2
          = 1 - l2sq [0] (storeA.indexVecs.getD i []) / 2) ∧
      (¬ l2sq [0] (storeA.indexVecs.getD i []) ≤ 2 →
        (memA, simScore (l2sq [0] [0])).2 = 0)) :=
  ⟨⟨rfl, by simp⟩,
    similarity_score_transform storeA [0] none none 1
      [(memA, simScore (l2sq [0] [0]))] rfl
      (memA, simScore (l2sq [0] [0])) (by simp)⟩
